import Mathlib

/-!
# Verification of the pargus schema compiler

This file gives a shallow embedding, in Lean 4, of the pargus schema
compiler (github.com/dspasibenko/pargus): the post-parse semantic
validation passes of the `parser` package and the behaviour of the code
the Go generator emits (big-endian serialization and deserialization of
register values, buffer-size formulas, bit masks and the consistency
check for variable-length arrays).

The repository contains two generations of the parser package:

* `pkg/parser/parser.go` — the older parser, with `int`-typed register
  numbers and a three-way `ArraySize` (`Constant`/`Type`/`Variable`);
  it is embedded below in the namespace `parsergo`;
* the newer parser (the file defining `RegisterBody`, `NumberStr`,
  `Register.FindFieldByName`, `trimString`) used by the Go code
  generator `GenerateGo`; it is embedded in the namespace `parser`.

The Go generator `GenerateGo` and the emitted Go runtime helpers
(`putNumber`, `getNumber`, `putSlice`, `getSlice`) are embedded in the
namespace `generator`, together with a direct semantics of the code the
templates produce for every register (`SerializeRead`, `SerializeWrite`,
`DeserializeRead`, `DeserializeWrite`, `Check`, `BufSize4Read`,
`BufSize4Write`).

Machine integers are modelled as `Nat` bit patterns reduced modulo
`2 ^ (8 * size)` where overflow matters; a Go buffer write is modelled
as the list of bytes it appends (buffer capacity is a caller concern in
the generated code and is modelled on the read side, where the source
checks it before every access).
-/

/-! ## Big-endian byte-level helpers

`beBytes size v` is the big-endian encoding of the low `size` bytes of
`v`: exactly the bytes stored by `binary.BigEndian.PutUintN` (and by the
single-byte assignment `b[0] = byte(v)`).  `beUint` is the matching
decoder, as in `binary.BigEndian.UintN`. -/

/-- Big-endian bytes of the value `v` truncated to `size` bytes:
the byte at position `k` (from the most significant end) is
`(v >> (8*(size-1-k))) % 256`. -/
def beBytes : Nat → Nat → List Nat
  | 0, _ => []
  | n + 1, v => ((v / 2 ^ (8 * n)) % 256) :: beBytes n v

/-- Big-endian decoding of a byte list, as `binary.BigEndian.UintN`. -/
def beUint : List Nat → Nat
  | [] => 0
  | b :: rest => b * 2 ^ (8 * rest.length) + beUint rest

theorem beBytes_length (n v : Nat) : (beBytes n v).length = n := by
  induction n generalizing v with
  | zero => rfl
  | succ n ih => simp [beBytes, ih]

theorem beUint_beBytes_mod (n v : Nat) : beUint (beBytes n v) = v % 2 ^ (8 * n) := by
  induction n generalizing v with
  | zero => simp [beBytes, beUint, Nat.mod_one]
  | succ n ih =>
    have hlen : (beBytes n v).length = n := beBytes_length n v
    have hsplit : 2 ^ (8 * (n + 1)) = 2 ^ (8 * n) * 2 ^ 8 := by
      rw [← pow_add]; ring_nf
    calc beUint (beBytes (n + 1) v)
        = (v / 2 ^ (8 * n) % 256) * 2 ^ (8 * n) + beUint (beBytes n v) := by
          simp [beBytes, beUint, hlen]
      _ = (v / 2 ^ (8 * n) % 256) * 2 ^ (8 * n) + v % 2 ^ (8 * n) := by rw [ih]
      _ = v % 2 ^ (8 * (n + 1)) := by
          rw [hsplit, Nat.mod_mul]
          norm_num [Nat.mul_comm, Nat.add_comm]

theorem beUint_beBytes (n v : Nat) (h : v < 2 ^ (8 * n)) :
    beUint (beBytes n v) = v := by
  rw [beUint_beBytes_mod, Nat.mod_eq_of_lt h]

theorem beBytes_take (n v : Nat) (extra : List Nat) :
    (beBytes n v ++ extra).take n = beBytes n v := by
  rw [List.take_append_of_le_length (by simp [beBytes_length])]
  simp [beBytes_length]

theorem beBytes_drop (n v : Nat) (extra : List Nat) :
    (beBytes n v ++ extra).drop n = extra := by
  rw [List.drop_append_of_le_length (by simp [beBytes_length])]
  simp [beBytes_length]

/-- Reads `count` big-endian values of `size` bytes each from the front of
`buf`, as the loops of the generated `getSlice` do. -/
def readSlice (size : Nat) : Nat → List Nat → List Nat
  | 0, _ => []
  | k + 1, buf => beUint (buf.take size) :: readSlice size k (buf.drop size)

theorem readSlice_append (size : Nat) (vs : List Nat) (extra : List Nat)
    (hb : ∀ v ∈ vs, v < 2 ^ (8 * size)) :
    readSlice size vs.length ((vs.map (beBytes size)).flatten ++ extra) = vs := by
  induction vs with
  | nil => rfl
  | cons v vs ih =>
    have hv : v < 2 ^ (8 * size) := hb v (List.mem_cons_self v vs)
    simp only [List.map_cons, List.flatten_cons, List.length_cons, List.append_assoc]
    simp only [readSlice, beBytes_take, beBytes_drop]
    rw [beUint_beBytes size v hv, ih (fun w hw => hb w (List.mem_cons_of_mem v hw))]

theorem join_map_beBytes_length (size : Nat) (vs : List Nat) :
    ((vs.map (beBytes size)).flatten).length = vs.length * size := by
  induction vs with
  | nil => simp
  | cons v vs ih => simp [ih, beBytes_length, Nat.succ_mul, Nat.add_comm]

theorem readSlice_drop (size : Nat) (vs : List Nat) (extra : List Nat) :
    ((vs.map (beBytes size)).flatten ++ extra).drop (vs.length * size) = extra := by
  rw [← join_map_beBytes_length size vs, List.drop_left]

/-! ## The parser AST

Shallow embedding of the AST of the newer `parser` package (the file
defining `RegisterBody` and `Register.FindFieldByName`).  Comment and
position fields are cosmetic and are omitted.  Integer-valued tokens
(`NumberStr`, `BitMember.Start`/`End`, array length constants) are
modelled by their parsed values (`strconv.ParseInt` of the token), since
the lexer only produces valid integer literals; `BitMember.StartBit`
and `EndBit` then return those values directly. -/

namespace parser

/-- `SimpleType` — a scalar type name (or, in schemas using register
embedding, the name of another register). -/
structure SimpleType where
  name : String
deriving DecidableEq, Repr

/-- `ArraySize` — `Constant` holds a fixed length literal, `var` models
the `Variable` field holding a length-reference identifier. -/
structure ArraySize where
  constant : Option Nat
  var : Option String
deriving DecidableEq, Repr

/-- `ArrayType` — `size` and the element type (named `Type` in Go). -/
structure ArrayType where
  size : ArraySize
  type : SimpleType
deriving DecidableEq, Repr

/-- `BitMember{Name, Start, End}`; `start`/`End` hold the parsed values
of the `Start`/`End` integer tokens. -/
structure BitMember where
  name : String
  start : Int
  End : Option Int
deriving DecidableEq, Repr

/-- `BitMember.StartBit` — parsed start bit. -/
def BitMember.StartBit (bm : BitMember) : Int := bm.start

/-- `BitMember.EndBit` — parsed end bit, defaulting to the start bit
when no `-End` part was given. -/
def BitMember.EndBit (bm : BitMember) : Int :=
  match bm.End with
  | some e => e
  | none => bm.StartBit

/-- `BitField{Base, Bits}`. -/
structure BitField where
  base : String
  bits : List BitMember
deriving DecidableEq, Repr

/-- `TypeUnion` — the union-of-pointers type wrapper: at most one of the
three alternatives is populated by the Go parser. -/
structure TypeUnion where
  bitfield : Option BitField
  array : Option ArrayType
  simple : Option SimpleType
deriving DecidableEq, Repr

/-- `Field{Name, Specifier, Type}`; `specifier` is `""`, `"r"` or `"w"`
(`""` when no specifier was written). -/
structure Field where
  name : String
  specifier : String
  type : TypeUnion
deriving DecidableEq, Repr

/-- `Register` — `fields` models `Body.Fields()` (constants have no
layout impact and are omitted); `number` is the parsed `NumberStr`. -/
structure Register where
  name : String
  number : Int
  specifier : String
  fields : List Field
deriving DecidableEq, Repr

/-- `Device{Name, Registers}`. -/
structure Device where
  name : String
  registers : List Register
deriving DecidableEq, Repr

/-- The semantic errors `Parse` can return, one constructor per
`fmt.Errorf` message of the validation passes. -/
inductive ParseError where
  /-- "duplicate register number %d" -/
  | duplicateRegisterNumber (n : Int)
  /-- "field '%s' in register '%s' cannot be write-only because register is read-only" -/
  | writeFieldInReadRegister (field reg : String)
  /-- "field '%s' in register '%s' cannot be read-only because register is write-only" -/
  | readFieldInWriteRegister (field reg : String)
  /-- "bit field '%s' in register '%s' must use unsigned integer type, got '%s'" -/
  | invalidBitfieldBase (field reg base : String)
  /-- "bit field ...: bit range %s-%d exceeds size of base type '%s' (%d bits)" -/
  | bitRangeExceedsBase (field reg : String) (start endBit : Int) (bits : Nat)
  /-- "bit field ...: bit position cannot be negative, got %s" -/
  | negativeBitPosition (field reg : String) (start : Int)
  /-- "bit field ...: start bit %s cannot be greater than end bit %d" -/
  | startAfterEndBit (field reg : String) (start endBit : Int)
  /-- "variable-length array '%s' in register '%s' must use unsigned integer type for size, got '%s'" -/
  | varArraySizeTypeNotUnsigned (field reg tp : String)
  /-- "variable-length array '%s' in register '%s' has type '%s' in Variable field instead of Type field" -/
  | varArrayTypeInVariableField (field reg tp : String)
  /-- "variable-length array '%s' in register '%s' references undefined field '%s'" -/
  | undefinedLengthReference (field reg ref : String)
deriving DecidableEq, Repr

/-- `isUnsignedType` — identical in both parser generations. -/
def isUnsignedType (typeName : String) : Bool :=
  typeName = "uint8" || typeName = "uint16" || typeName = "uint32" || typeName = "uint64"

/-- `getTypeSizeInBits` — bit width of an unsigned base type name. -/
def getTypeSizeInBits (typeName : String) : Nat :=
  if typeName = "uint8" then 8
  else if typeName = "uint16" then 16
  else if typeName = "uint32" then 32
  else if typeName = "uint64" then 64
  else 0

/-- `Register.validateAndUpdateFieldSpecifiers` — resolves specifier
inheritance and reports read/write conflicts.  The Go method mutates the
register's fields in place and returns an `error`; this embedding
returns the updated register on success. -/
def validateFieldsSpec (registerSpec regName : String) :
    List Field → Except ParseError (List Field)
  | [] => .ok []
  | f :: fs =>
    if f.specifier = "" then
      match validateFieldsSpec registerSpec regName fs with
      | .error e => .error e
      | .ok fs' => .ok ({ f with specifier := registerSpec } :: fs')
    else if registerSpec = "r" ∧ f.specifier = "w" then
      .error (.writeFieldInReadRegister f.name regName)
    else if registerSpec = "w" ∧ f.specifier = "r" then
      .error (.readFieldInWriteRegister f.name regName)
    else
      match validateFieldsSpec registerSpec regName fs with
      | .error e => .error e
      | .ok fs' => .ok (f :: fs')

/-- `Register.validateAndUpdateFieldSpecifiers`: when the register has no
specifier the fields are left untouched; otherwise every unspecified
field inherits the register specifier and explicit contradictions are
fatal errors. -/
def validateAndUpdateFieldSpecifiers (r : Register) : Except ParseError Register :=
  if r.specifier = "" then .ok r
  else
    match validateFieldsSpec r.specifier r.name r.fields with
    | .error e => .error e
    | .ok fs => .ok { r with fields := fs }

/-- Member-range checks of `Register.validateBitFields` for one bit
field, in source order: range-exceeds-base, negative start,
start-after-end. -/
def validateBits (fieldName regName base : String) (baseTypeBits : Nat) :
    List BitMember → Except ParseError Unit
  | [] => .ok ()
  | bm :: bms =>
    if bm.EndBit ≥ (baseTypeBits : Int) then
      .error (.bitRangeExceedsBase fieldName regName bm.start bm.EndBit baseTypeBits)
    else if bm.StartBit < 0 then
      .error (.negativeBitPosition fieldName regName bm.start)
    else if bm.StartBit > bm.EndBit then
      .error (.startAfterEndBit fieldName regName bm.start bm.EndBit)
    else
      validateBits fieldName regName base baseTypeBits bms

/-- `Register.validateBitFields` — base type must be unsigned and every
member's bit range must fit the base type. -/
def validateBitFieldsAux (regName : String) : List Field → Except ParseError Unit
  | [] => .ok ()
  | f :: fs =>
    match f.type.bitfield with
    | none => validateBitFieldsAux regName fs
    | some bf =>
      if ¬ isUnsignedType bf.base then
        .error (.invalidBitfieldBase f.name regName bf.base)
      else
        match validateBits f.name regName bf.base (getTypeSizeInBits bf.base) bf.bits with
        | .error e => .error e
        | .ok _ => validateBitFieldsAux regName fs

/-- `Register.validateBitFields`. -/
def validateBitFields (r : Register) : Except ParseError Unit :=
  validateBitFieldsAux r.name r.fields

end parser

namespace parser

/-- Inner loop of `Register.FindFieldByName`: first bit member whose
synthesized reference name `<field>_<member>` matches. -/
def findBitMemberRef (fieldName refName : String) : List BitMember → Option BitMember
  | [] => none
  | bm :: bms =>
    if refName = fieldName ++ "_" ++ bm.name then some bm
    else findBitMemberRef fieldName refName bms

/-- Scan of `Register.FindFieldByName` over the fields declared before
the current one.  The source returns the matched field pointer (and bit
member pointer, for a `<field>_<member>` reference); the embedding also
returns the field's index, which identifies the same field. -/
def findFieldScan (refName : String) : Nat → List Field → Option (Nat × Field × Option BitMember)
  | _, [] => none
  | i, f :: fs =>
    if f.name = refName ∧ f.type.simple.isSome then some (i, f, none)
    else
      match f.type.bitfield with
      | some bf =>
        match findBitMemberRef f.name refName bf.bits with
        | some bm => some (i, f, some bm)
        | none => findFieldScan refName (i + 1) fs
      | none => findFieldScan refName (i + 1) fs

/-- `Register.FindFieldByName(fieldName, currentFieldIndex)` — looks the
reference up among the fields declared strictly before index
`currentFieldIndex`: a simple-typed field matched by name, or a bit
member matched by its `<field>_<member>` reference name. -/
def Register.FindFieldByName (r : Register) (fieldName : String) (currentFieldIndex : Nat) :
    Option (Nat × Field × Option BitMember) :=
  findFieldScan fieldName 0 (r.fields.take currentFieldIndex)

/-- `Register.validateArrays` — every variable-length array must
reference a field or bit member declared before it. -/
def validateArraysAux (r : Register) : Nat → List Field → Except ParseError Unit
  | _, [] => .ok ()
  | i, f :: fs =>
    match f.type.array with
    | none => validateArraysAux r (i + 1) fs
    | some arrayType =>
      match arrayType.size.var with
      | none => validateArraysAux r (i + 1) fs
      | some fieldName =>
        match r.FindFieldByName fieldName i with
        | none => .error (.undefinedLengthReference f.name r.name fieldName)
        | some _ => validateArraysAux r (i + 1) fs

/-- `Register.validateArrays`. -/
def validateArrays (r : Register) : Except ParseError Unit :=
  validateArraysAux r 0 r.fields

/-- The per-register validation loop of `Parse`: duplicate register
numbers, then field specifiers, then bit fields, then arrays, register
by register, fail-fast.  `seen` models the `registerNumbers` map; the
register list of the returned device carries the specifier updates the
source makes in place. -/
def validateRegisters (seen : List Int) : List Register → Except ParseError (List Register)
  | [] => .ok []
  | r :: rs =>
    if r.number ∈ seen then .error (.duplicateRegisterNumber r.number)
    else
      match validateAndUpdateFieldSpecifiers r with
      | .error e => .error e
      | .ok r' =>
        match validateBitFields r' with
        | .error e => .error e
        | .ok _ =>
          match validateArrays r' with
          | .error e => .error e
          | .ok _ =>
            match validateRegisters (r.number :: seen) rs with
            | .error e => .error e
            | .ok rs' => .ok (r' :: rs')

/-- The semantic-validation portion of `Parse`: everything `Parse` does
after `parser.ParseString` succeeds (the trailing-comment rewriting is
cosmetic and not modelled). -/
def validateDevice (d : Device) : Except ParseError Device :=
  match validateRegisters [] d.registers with
  | .error e => .error e
  | .ok regs => .ok { d with registers := regs }

end parser

/-! ## Input trimming (`removeTrailingEmptyLinesFromString` / `trimString`)

Go strings are modelled as `List Char`.  `strings.Split(input, "\n")`
is `splitLines`, `strings.Join(lines, "\n")` is `joinLines`, and
`strings.TrimSpace(line) != ""` is `¬ lineIsBlank line` (a line is
blank when all its characters are Unicode white space, the characters
`unicode.IsSpace` accepts in the Latin-1 range). -/

namespace parser

/-- `unicode.IsSpace` restricted to the Latin-1 space characters:
tab, newline, vertical tab, form feed, carriage return, space, NEL and
no-break space. -/
def isSpaceChar (c : Char) : Bool :=
  c = ' ' || c = '\t' || c = '\n' || c = Char.ofNat 11 || c = Char.ofNat 12 ||
    c = '\r' || c = Char.ofNat 0x85 || c = Char.ofNat 0xA0

/-- `strings.TrimSpace(line) == ""`. -/
def lineIsBlank (line : List Char) : Bool := line.all isSpaceChar

/-- `strings.Split(input, "\n")`. -/
def splitLines : List Char → List (List Char)
  | [] => [[]]
  | c :: rest =>
    match splitLines rest with
    | [] => [[c]]
    | l :: ls => if c = '\n' then [] :: l :: ls else (c :: l) :: ls

/-- `strings.Join(lines, "\n")`. -/
def joinLines : List (List Char) → List Char
  | [] => []
  | [l] => l
  | l :: ls => l ++ '\n' :: joinLines ls

/-- Index of the last line for which `strings.TrimSpace(line) != ""`,
`none` when every line is blank (the `lastNonEmpty == -1` case). -/
def lastNonEmptyIdx : List (List Char) → Option Nat
  | [] => none
  | l :: ls =>
    match lastNonEmptyIdx ls with
    | some k => some (k + 1)
    | none => if lineIsBlank l then none else some 0

/-- `removeTrailingEmptyLinesFromString` (named `trimString` in the
newer parser, with identical result): keeps the lines up to and
including the last non-blank one. -/
def removeTrailingEmptyLinesFromString (input : List Char) : List Char :=
  let lines := splitLines input
  match lastNonEmptyIdx lines with
  | none => []
  | some k => joinLines (lines.take (k + 1))

/-- `Parse`, parameterized by the participle text parser
(`parser.ParseString`, an external library): the input is first trimmed
of trailing blank lines, then parsed, then semantically validated. -/
def ParseWith (parseString : List Char → Except ParseError Device)
    (input : List Char) : Except ParseError Device :=
  match parseString (removeTrailingEmptyLinesFromString input) with
  | .error e => .error e
  | .ok d => validateDevice d

end parser

/-! ## The older parser (`pkg/parser/parser.go`)

The repository also carries the previous generation of the parser
package, whose `findFieldByName`/`validateArrays` differ from the newer
`Register.FindFieldByName`/`Register.validateArrays`: the old scan
matches any field by bare name (not only simple-typed ones) and also
accepts bare bit-member names and `<field>_<member>_bm` mask names, and
the old `ArraySize` has a third `Type` alternative.  It is embedded in
this namespace for the claims that cite it. -/

namespace parsergo

/-- `SimpleType`. -/
structure SimpleType where
  name : String
deriving DecidableEq, Repr

/-- `ArraySize{Constant, Type, Variable}`. -/
structure ArraySize where
  constant : Option Int
  type : Option String
  var : Option String
deriving DecidableEq, Repr

/-- `BitMember{Name, Start, End}`. -/
structure BitMember where
  name : String
  start : Int
  End : Option Int
deriving DecidableEq, Repr

/-- `BitField{Base, Bits}`. -/
structure BitField where
  base : String
  bits : List BitMember
deriving DecidableEq, Repr

mutual
/-- `TypeUnion{Bitfield, Array, Simple}`. -/
inductive TypeUnion where
  | mk (bitfield : Option BitField) (array : Option ArrayType) (simple : Option SimpleType)

/-- `ArrayType{Size, Element}` — the element is itself a `TypeUnion`. -/
inductive ArrayType where
  | mk (size : ArraySize) (element : TypeUnion)
end

/-- `TypeUnion.Bitfield`. -/
def TypeUnion.bitfield : TypeUnion → Option BitField
  | .mk b _ _ => b

/-- `TypeUnion.Array`. -/
def TypeUnion.array : TypeUnion → Option ArrayType
  | .mk _ a _ => a

/-- `TypeUnion.Simple`. -/
def TypeUnion.simple : TypeUnion → Option SimpleType
  | .mk _ _ s => s

/-- `ArrayType.Size`. -/
def ArrayType.size : ArrayType → ArraySize
  | .mk s _ => s

/-- `Field{Name, Specifier, Type}`. -/
structure Field where
  name : String
  specifier : String
  type : TypeUnion

/-- `Register{Name, Number, Specifier, Fields}`. -/
structure Register where
  name : String
  number : Int
  specifier : String
  fields : List Field

/-- `isUnsignedType` of the older parser (same body as the newer one). -/
def isUnsignedType (typeName : String) : Bool :=
  typeName = "uint8" || typeName = "uint16" || typeName = "uint32" || typeName = "uint64"

/-- The bit-member scan inside `findFieldByName`: bare member name,
`<field>_<member>` reference, or `<field>_<member>_bm` mask name, in
that order for each member. -/
def findBitMemberMatch (fieldName refName : String) : List BitMember → Option String
  | [] => none
  | bm :: bms =>
    if bm.name = refName then some "bitfield"
    else if refName = fieldName ++ "_" ++ bm.name then some "bitfield_ref"
    else if refName = fieldName ++ "_" ++ bm.name ++ "_bm" then some "bitmask"
    else findBitMemberMatch fieldName refName bms

/-- The field scan of `findFieldByName` over the fields declared before
the current one. -/
def findFieldScan (refName : String) : List Field → Bool × String
  | [] => (false, "")
  | f :: fs =>
    if f.name = refName then (true, "field")
    else
      match f.type.bitfield with
      | some bf =>
        match findBitMemberMatch f.name refName bf.bits with
        | some kind => (true, kind)
        | none => findFieldScan refName fs
      | none => findFieldScan refName fs

/-- `findFieldByName(register, fieldName, currentFieldIndex)` — whether
the name resolves among the fields declared strictly before index
`currentFieldIndex`, and as what kind of reference. -/
def findFieldByName (r : Register) (fieldName : String) (currentFieldIndex : Nat) :
    Bool × String :=
  findFieldScan fieldName (r.fields.take currentFieldIndex)

/-- The `Size.Variable` checks of the older `validateArrays` body. -/
def checkArrayFieldVar (r : Register) (i : Nat) (f : Field) (arrayType : ArrayType) :
    Option parser.ParseError :=
  match arrayType.size.var with
  | none => none
  | some fieldName =>
    if isUnsignedType fieldName then
      some (.varArrayTypeInVariableField f.name r.name fieldName)
    else if (findFieldByName r fieldName i).1 = false then
      some (.undefinedLengthReference f.name r.name fieldName)
    else none

/-- The body of the older `validateArrays` loop for one array field:
a variable-length array sized by a type must use an unsigned type, a
`Variable` holding a type name is an internal error, and a field
reference must resolve among previously declared fields.  Returns
`none` when the field passes and the loop continues. -/
def checkArrayField (r : Register) (i : Nat) (f : Field) (arrayType : ArrayType) :
    Option parser.ParseError :=
  match arrayType.size.type with
  | some sizeType =>
    if ¬ isUnsignedType sizeType then
      some (.varArraySizeTypeNotUnsigned f.name r.name sizeType)
    else checkArrayFieldVar r i f arrayType
  | none => checkArrayFieldVar r i f arrayType

/-- The loop of the older `validateArrays`. -/
def validateArraysAux (r : Register) : Nat → List Field → Except parser.ParseError Unit
  | _, [] => .ok ()
  | i, f :: fs =>
    match f.type.array with
    | none => validateArraysAux r (i + 1) fs
    | some arrayType =>
      match checkArrayField r i f arrayType with
      | some e => .error e
      | none => validateArraysAux r (i + 1) fs

/-- `validateArrays`. -/
def validateArrays (r : Register) : Except parser.ParseError Unit :=
  validateArraysAux r 0 r.fields

end parsergo

/-! ## The generator

Embeds `pkg/generator`: the shared helpers (`toGoTypes`, `typeSize`,
`bitMask`, and `toBitMask` from the Arduino C++ generator), the runtime
helpers the Go generator emits (`putNumber`, `getNumber`, `putSlice`,
`getSlice`), and a direct semantics of the per-register methods the
`goTemplate` produces (`Check`, `SerializeRead`, `SerializeWrite`,
`DeserializeRead`, `DeserializeWrite`, `BufSize4Read`, `BufSize4Write`).

A register value is a list of `FieldValue`s parallel to the register's
field list; scalar and bit-field base values are `Nat` bit patterns
(two's complement for the signed Go types), so Go's `uintN(v)` /
`T(uintN)` conversions in `putNumber`/`getNumber` are identities. -/

namespace generator

/-- `toGoTypes` — Go type name for a pargus type name. -/
def toGoTypes (typ : String) : String :=
  if typ = "int8" then "int8"
  else if typ = "uint8" then "uint8"
  else if typ = "int16" then "int16"
  else if typ = "uint16" then "uint16"
  else if typ = "int32" then "int32"
  else if typ = "uint32" then "uint32"
  else if typ = "int64" then "int64"
  else if typ = "uint64" then "uint64"
  else if typ = "float32" then "float32"
  else if typ = "float64" then "float64"
  else "interface\x7b\x7d"

/-- `typeSize` — byte width of a Go type name (0 for unknown types). -/
def typeSize (goType : String) : Nat :=
  if goType = "int8" ∨ goType = "uint8" then 1
  else if goType = "int16" ∨ goType = "uint16" then 2
  else if goType = "int32" ∨ goType = "uint32" ∨ goType = "float32" then 4
  else if goType = "int64" ∨ goType = "uint64" ∨ goType = "float64" then 8
  else 0

/-- `bitMask(start, end)` — `(uint64(1)<<width - 1) << start` with
`width = end-start+1`, in Go `uint64` arithmetic (a shift by 64 or more
yields 0, subtraction and the final shift wrap modulo `2^64`). -/
def bitMask (start endBit : Nat) : Nat :=
  let width := endBit - start + 1
  ((((1 <<< width) % 2 ^ 64 + 2 ^ 64 - 1) % 2 ^ 64) <<< start) % 2 ^ 64

/-- `toBitMask(start, end)` of the Arduino C++ generator, modelled by
the mask value it computes (the source returns the value formatted as a
hex string): `1<<start` for a single bit, otherwise the loop
`for i := start; i <= actualEnd; i++ { mask |= 1 << i }`, in Go `int`
arithmetic modelled as a 64-bit pattern. -/
def toBitMask (start : Nat) (End : Option Nat) : Nat :=
  let actualEnd := match End with | some e => e | none => start
  if actualEnd = start then (1 <<< start) % 2 ^ 64
  else (List.range (actualEnd + 1 - start)).foldl
    (fun mask i => mask ||| ((1 <<< (start + i)) % 2 ^ 64)) 0

/-- The runtime errors of the generated Go code: the
"buffer too small" and "unsupported type size" errors of
`putNumber`/`getNumber`/`putSlice`/`getSlice`, the
"array %s length (%d) does not match field %s value (%d)" error of the
generated `Check`, and a stand-in for the nil-pointer panic the
generator would hit on an unresolvable length reference (impossible
after validation). -/
inductive GenError where
  | bufferTooSmall (need have_ : Nat)
  | unsupportedTypeSize (size : Nat)
  | arrayLengthMismatch (arrName refName : String) (len val : Nat)
  | unresolvedLengthRef (refName : String)
deriving DecidableEq, Repr

/-- `putNumber` — writes `size` big-endian bytes of `v`; the generated
caller passes a buffer of sufficient capacity, so the write is modelled
by the bytes produced; the `default` switch branch is the error. -/
def putNumber (size : Nat) (v : Nat) : Except GenError (List Nat) :=
  if size = 1 ∨ size = 2 ∨ size = 4 ∨ size = 8 then .ok (beBytes size v)
  else .error (.unsupportedTypeSize size)

/-- `getNumber` — reads `size` big-endian bytes from the front of the
buffer, failing when fewer remain. -/
def getNumber (size : Nat) (buf : List Nat) : Except GenError (Nat × List Nat) :=
  if buf.length < size then .error (.bufferTooSmall size buf.length)
  else if size = 1 ∨ size = 2 ∨ size = 4 ∨ size = 8 then
    .ok (beUint (buf.take size), buf.drop size)
  else .error (.unsupportedTypeSize size)

/-- `putSlice` — writes every element of `s` as `size` big-endian
bytes; an empty slice writes nothing and cannot fail. -/
def putSlice (size : Nat) (s : List Nat) : Except GenError (List Nat) :=
  if s.length = 0 then .ok []
  else if size = 1 ∨ size = 2 ∨ size = 4 ∨ size = 8 then
    .ok ((s.map (beBytes size)).flatten)
  else .error (.unsupportedTypeSize size)

/-- `getSlice` — fills a destination slice of `count` elements from the
front of the buffer; an empty destination reads nothing. -/
def getSlice (size count : Nat) (buf : List Nat) :
    Except GenError (List Nat × List Nat) :=
  if count = 0 then .ok ([], buf)
  else if buf.length < count * size then .error (.bufferTooSmall (count * size) buf.length)
  else if size = 1 ∨ size = 2 ∨ size = 4 ∨ size = 8 then
    .ok (readSlice size count buf, buf.drop (count * size))
  else .error (.unsupportedTypeSize size)

/-- The in-memory value of one register field: a scalar (or bit-field
base) bit pattern, or the element list of an array field. -/
inductive FieldValue where
  | num (v : Nat)
  | arr (vs : List Nat)
deriving DecidableEq, Repr

/-- Reading a scalar struct field. -/
def getNum : FieldValue → Nat
  | .num v => v
  | .arr _ => 0

/-- Reading an array struct field. -/
def getArr : FieldValue → List Nat
  | .arr vs => vs
  | .num _ => []

/-- `IsReadable` — `f.Specifier == "r" || f.Specifier == ""`. -/
def IsReadable (specifier : String) : Bool :=
  specifier = "r" || specifier = ""

/-- `IsWritable` — `f.Specifier == "w" || f.Specifier == ""`. -/
def IsWritable (specifier : String) : Bool :=
  specifier = "w" || specifier = ""

/-- The branch of `GenerateGo`'s type switch a field falls into
(the `RegisterRef` branch needs a register-named simple type, which the
embedded parser's grammar cannot produce, and is not modelled). -/
inductive FieldKind where
  | bits (bf : parser.BitField)
  | fixedArr (elem : String) (sz : Nat)
  | varArr (elem : String) (refName : String)
  | scalar (name : String)
  | unsupported
deriving DecidableEq, Repr

/-- Classifies a field exactly as `GenerateGo`'s `switch` does:
`Bitfield`, then `Array` with a constant size, then `Array` with a
variable size, then `Simple`, then the unsupported default. -/
def fieldKind (f : parser.Field) : FieldKind :=
  match f.type.bitfield with
  | some bf => .bits bf
  | none =>
    match f.type.array with
    | some a =>
      match a.size.constant with
      | some sz => .fixedArr a.type.name sz
      | none =>
        match a.size.var with
        | some refName => .varArr a.type.name refName
        | none => .unsupported
    | none =>
      match f.type.simple with
      | some st => .scalar st.name
      | none => .unsupported

/-- Resolution of a variable-length array's length reference against
the current register state: the value of the referenced simple field,
or `(base & mask) >> start` for a bit-member reference, exactly the
expressions the generator emits. -/
def resolveLen (r : parser.Register) (s : List FieldValue) (i : Nat) (refName : String) :
    Option Nat :=
  match r.FindFieldByName refName i with
  | none => none
  | some (j, _, none) => some (getNum (s.getD j (.num 0)))
  | some (j, _, some bm) =>
    some ((getNum (s.getD j (.num 0)) &&& bitMask bm.StartBit.toNat bm.EndBit.toNat) >>>
      bm.StartBit.toNat)

/-- The serialization code `GenerateGo` emits for one field (identical
for the read and the write context), by the branch of the generator's
type switch the field falls into. -/
def serField (r : parser.Register) (s : List FieldValue) (i : Nat) :
    FieldKind → Except GenError (List Nat)
  | .bits bf => putNumber (typeSize (toGoTypes bf.base)) (getNum (s.getD i (.num 0)))
  | .fixedArr elem _ => putSlice (typeSize (toGoTypes elem)) (getArr (s.getD i (.num 0)))
  | .varArr elem refName =>
    match resolveLen r s i refName with
    | none => .error (.unresolvedLengthRef refName)
    | some _ => putSlice (typeSize (toGoTypes elem)) (getArr (s.getD i (.num 0)))
  | .scalar name => putNumber (typeSize (toGoTypes name)) (getNum (s.getD i (.num 0)))
  | .unsupported => .ok []

/-- The deserialization code `GenerateGo` emits for one field: the
field of the receiver struct is overwritten from the wire; a
variable-length array reads `elems` elements where `elems` is the
length reference resolved against the receiver's current state. -/
def desField (r : parser.Register) (st : List FieldValue) (i : Nat) (buf : List Nat) :
    FieldKind → Except GenError (List FieldValue × List Nat)
  | .bits bf =>
    match getNumber (typeSize (toGoTypes bf.base)) buf with
    | .error e => .error e
    | .ok (v, rest) => .ok (st.set i (.num v), rest)
  | .fixedArr elem sz =>
    match getSlice (typeSize (toGoTypes elem)) sz buf with
    | .error e => .error e
    | .ok (vs, rest) => .ok (st.set i (.arr vs), rest)
  | .varArr elem refName =>
    match resolveLen r st i refName with
    | none => .error (.unresolvedLengthRef refName)
    | some elems =>
      match getSlice (typeSize (toGoTypes elem)) elems buf with
      | .error e => .error e
      | .ok (vs, rest) => .ok (st.set i (.arr vs), rest)
  | .scalar name =>
    match getNumber (typeSize (toGoTypes name)) buf with
    | .error e => .error e
    | .ok (v, rest) => .ok (st.set i (.num v), rest)
  | .unsupported => .ok (st, buf)

/-- The `ConsistencyChecks` the generator emits for one field (only
variable-length array fields have any, regardless of view): the
in-memory array length must equal the resolved length-reference value. -/
def checkField (r : parser.Register) (s : List FieldValue) (i : Nat) (fname : String) :
    FieldKind → Except GenError Unit
  | .varArr _ refName =>
    match resolveLen r s i refName with
    | none => .error (.unresolvedLengthRef refName)
    | some val =>
      if (getArr (s.getD i (.num 0))).length = val then .ok ()
      else .error (.arrayLengthMismatch fname refName
          (getArr (s.getD i (.num 0))).length val)
  | _ => .ok ()

/-- The field loop of the generated `Check` method. -/
def checkFrom (r : parser.Register) (s : List FieldValue) :
    Nat → List parser.Field → Except GenError Unit
  | _, [] => .ok ()
  | i, f :: fs =>
    match checkField r s i f.name (fieldKind f) with
    | .error e => .error e
    | .ok _ => checkFrom r s (i + 1) fs

/-- The generated `Check` method. -/
def Check (r : parser.Register) (s : List FieldValue) : Except GenError Unit :=
  checkFrom r s 0 r.fields

/-- The field loop of the generated `SerializeRead`/`SerializeWrite`:
fields included in the view contribute their bytes in declaration
order. -/
def serFrom (incl : String → Bool) (r : parser.Register) (s : List FieldValue) :
    Nat → List parser.Field → Except GenError (List Nat)
  | _, [] => .ok []
  | i, f :: fs =>
    match (if incl f.specifier then serField r s i (fieldKind f) else .ok []) with
    | .error e => .error e
    | .ok b =>
      match serFrom incl r s (i + 1) fs with
      | .error e => .error e
      | .ok rest => .ok (b ++ rest)

/-- The field loop of the generated
`DeserializeRead`/`DeserializeWrite`: fields included in the view are
read back in declaration order, updating the receiver. -/
def desFrom (incl : String → Bool) (r : parser.Register) :
    Nat → List parser.Field → List FieldValue → List Nat →
    Except GenError (List FieldValue × List Nat)
  | _, [], st, buf => .ok (st, buf)
  | i, f :: fs, st, buf =>
    match (if incl f.specifier then desField r st i buf (fieldKind f) else .ok (st, buf)) with
    | .error e => .error e
    | .ok (st', buf') => desFrom incl r (i + 1) fs st' buf'

/-- The generated `SerializeRead`: `Check`, then the read-view field
writes; on a `Check` error nothing is written. -/
def SerializeRead (r : parser.Register) (s : List FieldValue) :
    Except GenError (List Nat) :=
  match Check r s with
  | .error e => .error e
  | .ok _ => serFrom IsReadable r s 0 r.fields

/-- The generated `SerializeWrite`. -/
def SerializeWrite (r : parser.Register) (s : List FieldValue) :
    Except GenError (List Nat) :=
  match Check r s with
  | .error e => .error e
  | .ok _ => serFrom IsWritable r s 0 r.fields

/-- The generated `DeserializeRead`, as a function of the receiver's
current state `st` (the Go method overwrites the receiver's read-view
fields); returns the new state and the unread remainder of the buffer. -/
def DeserializeRead (r : parser.Register) (st : List FieldValue) (buf : List Nat) :
    Except GenError (List FieldValue × List Nat) :=
  desFrom IsReadable r 0 r.fields st buf

/-- The generated `DeserializeWrite`. -/
def DeserializeWrite (r : parser.Register) (st : List FieldValue) (buf : List Nat) :
    Except GenError (List FieldValue × List Nat) :=
  desFrom IsWritable r 0 r.fields st buf

/-- The per-field contribution to the generated buffer-size formulas:
the `BufSize4ReadConst`/`BufSize4WriteConst` constants for fixed-width
fields and the `BufSize4ReadExpr`/`BufSize4WriteExpr` terms for
variable-length arrays. -/
def bufSizeField (r : parser.Register) (s : List FieldValue) (i : Nat) : FieldKind → Nat
  | .bits bf => typeSize (toGoTypes bf.base)
  | .fixedArr elem sz => sz * typeSize (toGoTypes elem)
  | .varArr elem refName =>
    match resolveLen r s i refName with
    | none => 0
    | some elems => elems * typeSize (toGoTypes elem)
  | .scalar name => typeSize (toGoTypes name)
  | .unsupported => 0

/-- The field loop of the generated `BufSize4Read`/`BufSize4Write`. -/
def bufSizeFrom (incl : String → Bool) (r : parser.Register) (s : List FieldValue) :
    Nat → List parser.Field → Nat
  | _, [] => 0
  | i, f :: fs =>
    (if incl f.specifier then bufSizeField r s i (fieldKind f) else 0) +
      bufSizeFrom incl r s (i + 1) fs

/-- The generated `BufSize4Read`, evaluated at a register state. -/
def BufSize4Read (r : parser.Register) (s : List FieldValue) : Nat :=
  bufSizeFrom IsReadable r s 0 r.fields

/-- The generated `BufSize4Write`, evaluated at a register state. -/
def BufSize4Write (r : parser.Register) (s : List FieldValue) : Nat :=
  bufSizeFrom IsWritable r s 0 r.fields

end generator

namespace generator

/-- The type names admitted by the `Integer` constraint of the emitted
runtime helpers (`~int8 | ~int16 | ~int32 | ~int64 | ~uint8 | ~uint16 |
~uint32 | ~uint64`): the element/scalar kinds whose values the
generated code can serialize. -/
def isIntegerKind (name : String) : Bool :=
  name = "int8" || name = "int16" || name = "int32" || name = "int64" ||
    name = "uint8" || name = "uint16" || name = "uint32" || name = "uint64"

/-- A placeholder field for out-of-range list reads. -/
def defaultField : parser.Field := ⟨"", "", ⟨none, none, none⟩⟩

/-- Well-formedness of one field's in-memory value: the value has the
shape of the field's Go struct field and every scalar bit pattern fits
the declared width (which Go's types enforce); fixed arrays have their
declared length (which Go's array types enforce). -/
def wfKindValue (v : FieldValue) : FieldKind → Bool
  | .bits bf => isIntegerKind bf.base &&
    (match v with
     | .num x => decide (x < 2 ^ (8 * typeSize (toGoTypes bf.base)))
     | .arr _ => false)
  | .fixedArr elem sz => isIntegerKind elem &&
    (match v with
     | .arr vs => decide (vs.length = sz) &&
         vs.all (fun x => decide (x < 2 ^ (8 * typeSize (toGoTypes elem))))
     | .num _ => false)
  | .varArr elem _ => isIntegerKind elem &&
    (match v with
     | .arr vs => vs.all (fun x => decide (x < 2 ^ (8 * typeSize (toGoTypes elem))))
     | .num _ => false)
  | .scalar name => isIntegerKind name &&
    (match v with
     | .num x => decide (x < 2 ^ (8 * typeSize (toGoTypes name)))
     | .arr _ => false)
  | .unsupported => false

/-- Well-formedness of one field's in-memory value. -/
def wfFieldValue (f : parser.Field) (v : FieldValue) : Bool :=
  wfKindValue v (fieldKind f)

/-- Well-formedness of a whole register value. -/
def wfValue (r : parser.Register) (s : List FieldValue) : Bool :=
  decide (s.length = r.fields.length) &&
    (List.range r.fields.length).all (fun i =>
      wfFieldValue (r.fields.getD i defaultField) (s.getD i (.num 0)))

/-- The receiver `s0` of a deserialization agrees with the serialized
value `s` on every field outside the view (those the view never
transmits; in particular `s0 = s` always qualifies, and for a register
whose fields are all in the view any receiver qualifies). -/
def agreesOffView (incl : String → Bool) (r : parser.Register)
    (s0 s : List FieldValue) : Bool :=
  decide (s0.length = s.length) &&
    (List.range r.fields.length).all (fun i =>
      incl ((r.fields.getD i defaultField).specifier) ||
        decide (s0.getD i (.num 0) = s.getD i (.num 0)))

theorem typeSize_mem_of_integerKind {name : String} (h : isIntegerKind name = true) :
    typeSize (toGoTypes name) = 1 ∨ typeSize (toGoTypes name) = 2 ∨
      typeSize (toGoTypes name) = 4 ∨ typeSize (toGoTypes name) = 8 := by
  simp only [isIntegerKind, Bool.or_eq_true, decide_eq_true_eq] at h
  rcases h with ((((((h | h) | h) | h) | h) | h) | h) | h <;> subst h <;> simp [toGoTypes, typeSize]

theorem getD_set_self (l : List FieldValue) (i : Nat) (v d : FieldValue)
    (h : i < l.length) : (l.set i v).getD i d = v := by
  simp [List.getD_eq_getElem?_getD, List.getElem?_set_self, h]

theorem getD_set_other (l : List FieldValue) (i j : Nat) (v d : FieldValue)
    (h : j ≠ i) : (l.set i v).getD j d = l.getD j d := by
  simp [List.getD_eq_getElem?_getD, List.getElem?_set_ne (fun hh => h hh.symm)]

end generator

namespace generator

theorem findFieldScan_bounds {refName : String} :
    ∀ (fs : List parser.Field) (k j : Nat) (f : parser.Field)
      (obm : Option parser.BitMember),
      parser.findFieldScan refName k fs = some (j, f, obm) → k ≤ j ∧ j < k + fs.length := by
  intro fs
  induction fs with
  | nil => intro k j f obm h; simp [parser.findFieldScan] at h
  | cons f0 fs ih =>
    intro k j f obm h
    simp only [parser.findFieldScan] at h
    split at h
    · obtain ⟨rfl, rfl, rfl⟩ := by simpa using h
      exact ⟨le_refl _, by simp only [List.length_cons]; omega⟩
    · split at h
      · split at h
        · obtain ⟨rfl, rfl, rfl⟩ := by simpa using h
          exact ⟨le_refl _, by simp only [List.length_cons]; omega⟩
        · obtain ⟨h1, h2⟩ := ih (k + 1) j f obm h
          exact ⟨Nat.le_of_succ_le h1, by simp only [List.length_cons]; omega⟩
      · obtain ⟨h1, h2⟩ := ih (k + 1) j f obm h
        exact ⟨Nat.le_of_succ_le h1, by simp only [List.length_cons]; omega⟩

theorem FindFieldByName_lt {r : parser.Register} {refName : String} {i j : Nat}
    {f : parser.Field} {obm : Option parser.BitMember}
    (h : r.FindFieldByName refName i = some (j, f, obm)) : j < i := by
  have hb := findFieldScan_bounds (r.fields.take i) 0 j f obm h
  have : (r.fields.take i).length ≤ i := by simp [List.length_take]
  omega

theorem resolveLen_agree {r : parser.Register} {st s : List FieldValue} {i : Nat}
    {refName : String}
    (hag : ∀ j, j < i → st.getD j (.num 0) = s.getD j (.num 0)) :
    resolveLen r st i refName = resolveLen r s i refName := by
  unfold resolveLen
  cases h : r.FindFieldByName refName i with
  | none => rfl
  | some x =>
    obtain ⟨j, f, obm⟩ := x
    have hj : j < i := FindFieldByName_lt h
    have hv := hag j hj
    simp only [List.getD_eq_getElem?_getD] at hv
    cases obm <;> simp [hv]

theorem checkFrom_resolve {r : parser.Register} {s : List FieldValue} :
    ∀ (fs : List parser.Field) (i : Nat), checkFrom r s i fs = .ok () →
      ∀ (k : Nat) (f : parser.Field) (elem refName : String),
        fs.get? k = some f → fieldKind f = .varArr elem refName →
        resolveLen r s (i + k) refName = some (getArr (s.getD (i + k) (.num 0))).length := by
  intro fs
  induction fs with
  | nil => intro i h k f elem refName hget; simp at hget
  | cons f0 fs ih =>
    intro i h k f elem refName hget hkind
    simp only [checkFrom] at h
    have hrec : checkFrom r s (i + 1) fs = .ok () := by
      cases hcf : checkField r s i f0.name (fieldKind f0) with
      | error e => rw [hcf] at h; simp at h
      | ok u => rw [hcf] at h; exact h
    cases k with
    | zero =>
      simp only [List.get?_cons_zero, Option.some.injEq] at hget
      subst hget
      rw [hkind] at h
      simp only [checkField] at h
      split at h
      · exact absurd h (by simp)
      · rename_i val hres
        split at hres
        · exact absurd hres (by simp)
        · rename_i v heq2
          split at hres
          · rename_i hlen
            rw [Nat.add_zero, hlen]
            exact heq2
          · exact absurd hres (by simp)
    | succ k =>
      simp only [List.get?_cons_succ] at hget
      have hres := ih (i + 1) hrec k f elem refName hget hkind
      have heq : i + 1 + k = i + (k + 1) := by omega
      rw [heq] at hres
      exact hres

end generator

namespace generator

theorem getNumber_putNumber {size v : Nat} {b : List Nat} (extra : List Nat)
    (hv : v < 2 ^ (8 * size)) (h : putNumber size v = .ok b) :
    getNumber size (b ++ extra) = .ok (v, extra) := by
  unfold putNumber at h
  split at h
  · rename_i hsz
    obtain rfl : b = beBytes size v := by simpa using h.symm
    unfold getNumber
    have hlen : (beBytes size v ++ extra).length = size + extra.length := by
      simp [beBytes_length]
    rw [if_neg (by rw [hlen]; omega), if_pos hsz, beBytes_take, beBytes_drop,
      beUint_beBytes _ _ hv]
  · exact absurd h (by simp)

theorem getSlice_putSlice {size : Nat} {vs : List Nat} {b : List Nat} (extra : List Nat)
    (hb : ∀ v ∈ vs, v < 2 ^ (8 * size)) (h : putSlice size vs = .ok b) :
    getSlice size vs.length (b ++ extra) = .ok (vs, extra) := by
  unfold putSlice at h
  by_cases hnil : vs.length = 0
  · rw [if_pos hnil] at h
    obtain rfl : b = [] := by simpa using h.symm
    obtain rfl : vs = [] := List.length_eq_zero.mp hnil
    simp [getSlice]
  · rw [if_neg hnil] at h
    split at h
    · rename_i hsz
      obtain rfl : b = (vs.map (beBytes size)).flatten := by simpa using h.symm
      unfold getSlice
      have hflen : ((vs.map (beBytes size)).flatten ++ extra).length =
          vs.length * size + extra.length := by
        rw [List.length_append, join_map_beBytes_length]
      rw [if_neg hnil, if_neg (by rw [hflen]; omega), if_pos hsz,
        readSlice_append size vs extra hb, readSlice_drop]
    · exact absurd h (by simp)

theorem desField_serField {r : parser.Register} {s st : List FieldValue} {i : Nat}
    {k : FieldKind} {b : List Nat} (extra : List Nat)
    (hwf : wfKindValue (s.getD i (.num 0)) k = true)
    (hchkf : ∀ elem refName, k = .varArr elem refName →
        resolveLen r s i refName = some (getArr (s.getD i (.num 0))).length)
    (hag : ∀ j, j < i → st.getD j (.num 0) = s.getD j (.num 0))
    (hser : serField r s i k = .ok b) :
    desField r st i (b ++ extra) k = .ok (st.set i (s.getD i (.num 0)), extra) := by
  cases k with
  | bits bf =>
    simp only [wfKindValue, Bool.and_eq_true] at hwf
    obtain ⟨hik, hv⟩ := hwf
    cases hval : s.getD i (.num 0) with
    | arr vs => rw [hval] at hv; simp at hv
    | num x =>
      rw [hval] at hv
      simp only [decide_eq_true_eq] at hv
      simp only [serField, hval, getNum] at hser
      simp only [desField, getNumber_putNumber extra hv hser, ← hval]
  | scalar name =>
    simp only [wfKindValue, Bool.and_eq_true] at hwf
    obtain ⟨hik, hv⟩ := hwf
    cases hval : s.getD i (.num 0) with
    | arr vs => rw [hval] at hv; simp at hv
    | num x =>
      rw [hval] at hv
      simp only [decide_eq_true_eq] at hv
      simp only [serField, hval, getNum] at hser
      simp only [desField, getNumber_putNumber extra hv hser, ← hval]
  | fixedArr elem sz =>
    simp only [wfKindValue, Bool.and_eq_true] at hwf
    obtain ⟨hik, hv⟩ := hwf
    cases hval : s.getD i (.num 0) with
    | num x => rw [hval] at hv; simp at hv
    | arr vs =>
      rw [hval] at hv
      simp only [Bool.and_eq_true, decide_eq_true_eq, List.all_eq_true] at hv
      obtain ⟨hlen, hb⟩ := hv
      have hb' : ∀ v ∈ vs, v < 2 ^ (8 * typeSize (toGoTypes elem)) := by
        intro v hvm; simpa using hb v hvm
      simp only [serField, hval, getArr] at hser
      have hget := getSlice_putSlice extra hb' hser
      simp only [desField, ← hlen, hget, ← hval]
  | varArr elem refName =>
    simp only [wfKindValue, Bool.and_eq_true] at hwf
    obtain ⟨hik, hv⟩ := hwf
    cases hval : s.getD i (.num 0) with
    | num x => rw [hval] at hv; simp at hv
    | arr vs =>
      rw [hval] at hv
      simp only [List.all_eq_true] at hv
      have hb' : ∀ v ∈ vs, v < 2 ^ (8 * typeSize (toGoTypes elem)) := by
        intro v hvm; simpa using hv v hvm
      have hres : resolveLen r s i refName = some (getArr (s.getD i (.num 0))).length :=
        hchkf elem refName rfl
      rw [hval, getArr] at hres
      simp only [serField, hres, hval, getArr] at hser
      have hget := getSlice_putSlice extra hb' hser
      have hres' : resolveLen r st i refName = some vs.length := by
        rw [resolveLen_agree hag, hres]
      simp only [desField, hres', hget, ← hval]
  | unsupported => simp [wfKindValue] at hwf

end generator

namespace generator

theorem putSlice_ok {size : Nat} (vs : List Nat)
    (hsz : size = 1 ∨ size = 2 ∨ size = 4 ∨ size = 8) :
    ∃ b, putSlice size vs = .ok b := by
  by_cases h0 : vs.length = 0
  · exact ⟨[], by unfold putSlice; rw [if_pos h0]⟩
  · exact ⟨_, by unfold putSlice; rw [if_neg h0, if_pos hsz]⟩

theorem serField_ok {r : parser.Register} {s : List FieldValue} {i : Nat} {k : FieldKind}
    (hwf : wfKindValue (s.getD i (.num 0)) k = true)
    (hres : ∀ elem refName, k = .varArr elem refName →
        (resolveLen r s i refName).isSome = true) :
    ∃ b, serField r s i k = .ok b := by
  cases k with
  | bits bf =>
    simp only [wfKindValue, Bool.and_eq_true] at hwf
    exact ⟨beBytes (typeSize (toGoTypes bf.base)) (getNum (s.getD i (.num 0))), by
      simp only [serField]
      unfold putNumber
      rw [if_pos (typeSize_mem_of_integerKind hwf.1)]⟩
  | scalar name =>
    simp only [wfKindValue, Bool.and_eq_true] at hwf
    exact ⟨beBytes (typeSize (toGoTypes name)) (getNum (s.getD i (.num 0))), by
      simp only [serField]
      unfold putNumber
      rw [if_pos (typeSize_mem_of_integerKind hwf.1)]⟩
  | fixedArr elem sz =>
    simp only [wfKindValue, Bool.and_eq_true] at hwf
    obtain ⟨b, hb⟩ := putSlice_ok (getArr (s.getD i (.num 0)))
      (typeSize_mem_of_integerKind hwf.1)
    exact ⟨b, by simpa [serField] using hb⟩
  | varArr elem refName =>
    simp only [wfKindValue, Bool.and_eq_true] at hwf
    obtain ⟨val, hval⟩ := Option.isSome_iff_exists.mp (hres elem refName rfl)
    obtain ⟨b, hb⟩ := putSlice_ok (getArr (s.getD i (.num 0)))
      (typeSize_mem_of_integerKind hwf.1)
    refine ⟨b, ?_⟩
    simp only [serField, hval]
    exact hb
  | unsupported => exact ⟨[], rfl⟩

theorem serFrom_ok {incl : String → Bool} {r : parser.Register} {s : List FieldValue} :
    ∀ (fs : List parser.Field) (i : Nat),
      (∀ k f, fs.get? k = some f → wfFieldValue f (s.getD (i + k) (.num 0)) = true) →
      (∀ k f elem refName, fs.get? k = some f → fieldKind f = .varArr elem refName →
          (resolveLen r s (i + k) refName).isSome = true) →
      ∃ bytes, serFrom incl r s i fs = .ok bytes := by
  intro fs
  induction fs with
  | nil => intro i _ _; exact ⟨[], rfl⟩
  | cons f0 fs ih =>
    intro i hwf hres
    have hwf0 : wfKindValue (s.getD i (.num 0)) (fieldKind f0) = true := by
      have := hwf 0 f0 rfl
      simpa [wfFieldValue] using this
    have hres0 : ∀ elem refName, fieldKind f0 = .varArr elem refName →
        (resolveLen r s i refName).isSome = true := by
      intro elem refName hk
      simpa using hres 0 f0 elem refName rfl hk
    obtain ⟨rest, hrest⟩ := ih (i + 1)
      (fun k f hget => by
        have := hwf (k + 1) f hget
        have heq : i + (k + 1) = i + 1 + k := by omega
        rwa [heq] at this)
      (fun k f elem refName hget hk => by
        have := hres (k + 1) f elem refName hget hk
        have heq : i + (k + 1) = i + 1 + k := by omega
        rwa [heq] at this)
    by_cases hincl : incl f0.specifier = true
    · obtain ⟨b, hb⟩ := serField_ok hwf0 hres0
      refine ⟨b ++ rest, ?_⟩
      simp only [serFrom, hincl, if_pos, hb, hrest]
    · refine ⟨[] ++ rest, ?_⟩
      have hincl' : incl f0.specifier = false := by
        cases h : incl f0.specifier
        · rfl
        · exact absurd h hincl
      simp only [serFrom, hincl', Bool.false_eq_true, if_false, hrest]

end generator

namespace generator

theorem desFrom_serFrom (incl : String → Bool) (r : parser.Register)
    (s s0 : List FieldValue)
    (hagree0 : ∀ j f, r.fields.get? j = some f → incl f.specifier = false →
        s0.getD j (.num 0) = s.getD j (.num 0)) :
    ∀ (fs : List parser.Field) (i : Nat) (st : List FieldValue) (bytes extra : List Nat),
      r.fields.drop i = fs →
      st.length = s.length →
      s.length = r.fields.length →
      (∀ j, j < i → st.getD j (.num 0) = s.getD j (.num 0)) →
      (∀ j, i ≤ j → st.getD j (.num 0) = s0.getD j (.num 0)) →
      (∀ k f, fs.get? k = some f → wfFieldValue f (s.getD (i + k) (.num 0)) = true) →
      (∀ k f elem refName, fs.get? k = some f → fieldKind f = .varArr elem refName →
          resolveLen r s (i + k) refName =
            some (getArr (s.getD (i + k) (.num 0))).length) →
      serFrom incl r s i fs = .ok bytes →
      ∃ st', desFrom incl r i fs st (bytes ++ extra) = .ok (st', extra) ∧
        st'.length = s.length ∧
        (∀ j, j < i + fs.length → st'.getD j (.num 0) = s.getD j (.num 0)) ∧
        (∀ j, i + fs.length ≤ j → st'.getD j (.num 0) = s0.getD j (.num 0)) := by
  intro fs
  induction fs with
  | nil =>
    intro i st bytes extra hdrop hstlen hslen hlt hge hwf hchk hser
    obtain rfl : bytes = [] := by simpa [serFrom] using hser.symm
    exact ⟨st, by simp [desFrom], hstlen, fun j hj => hlt j (by simpa using hj),
      fun j hj => hge j (by omega)⟩
  | cons f0 fs ih =>
    intro i st bytes extra hdrop hstlen hslen hlt hge hwf hchk hser
    have hilen : i < r.fields.length := by
      by_contra hc
      rw [List.drop_eq_nil_of_le (Nat.le_of_not_lt hc)] at hdrop
      exact absurd hdrop (by simp)
    have hif0 : r.fields.get? i = some f0 := by
      have := List.get?_drop r.fields i 0
      rw [Nat.add_zero, hdrop] at this
      exact this.symm
    have hdrop1 : r.fields.drop (i + 1) = fs := by
      have h2 := List.drop_drop 1 i r.fields
      rw [hdrop] at h2
      simpa using h2.symm
    have hwf0 : wfKindValue (s.getD i (.num 0)) (fieldKind f0) = true := by
      have := hwf 0 f0 rfl
      simpa [wfFieldValue] using this
    have hchk0 : ∀ elem refName, fieldKind f0 = .varArr elem refName →
        resolveLen r s i refName = some (getArr (s.getD i (.num 0))).length := by
      intro elem refName hk
      simpa using hchk 0 f0 elem refName rfl hk
    have hwfs : ∀ k f, fs.get? k = some f →
        wfFieldValue f (s.getD (i + 1 + k) (.num 0)) = true := by
      intro k f hget
      have := hwf (k + 1) f hget
      have heq : i + (k + 1) = i + 1 + k := by omega
      rwa [heq] at this
    have hchks : ∀ k f elem refName, fs.get? k = some f →
        fieldKind f = .varArr elem refName →
        resolveLen r s (i + 1 + k) refName =
          some (getArr (s.getD (i + 1 + k) (.num 0))).length := by
      intro k f elem refName hget hk
      have := hchk (k + 1) f elem refName hget hk
      have heq : i + (k + 1) = i + 1 + k := by omega
      rwa [heq] at this
    simp only [serFrom] at hser
    by_cases hincl : incl f0.specifier = true
    · rw [if_pos hincl] at hser
      cases hserf : serField r s i (fieldKind f0) with
      | error e => rw [hserf] at hser; exact absurd hser (by simp)
      | ok b =>
        rw [hserf] at hser
        cases hrest : serFrom incl r s (i + 1) fs with
        | error e => rw [hrest] at hser; exact absurd hser (by simp)
        | ok rest =>
          rw [hrest] at hser
          obtain rfl : bytes = b ++ rest := by simpa using hser.symm
          have hdes0 : desField r st i (b ++ (rest ++ extra)) (fieldKind f0) =
              .ok (st.set i (s.getD i (.num 0)), rest ++ extra) :=
            desField_serField (rest ++ extra) hwf0 hchk0 hlt hserf
          have histlen : i < st.length := by omega
          have hset_len : (st.set i (s.getD i (.num 0))).length = s.length := by
            simp [hstlen]
          have hset_lt : ∀ j, j < i + 1 →
              (st.set i (s.getD i (.num 0))).getD j (.num 0) = s.getD j (.num 0) := by
            intro j hj
            rcases Nat.lt_succ_iff_lt_or_eq.mp hj with hj' | rfl
            · rw [getD_set_other st i j _ _ (Nat.ne_of_lt hj')]
              exact hlt j hj'
            · rw [getD_set_self st j _ _ histlen]
          have hset_ge : ∀ j, i + 1 ≤ j →
              (st.set i (s.getD i (.num 0))).getD j (.num 0) = s0.getD j (.num 0) := by
            intro j hj
            rw [getD_set_other st i j _ _ (by omega)]
            exact hge j (by omega)
          obtain ⟨st', hdes, hlen', hlt', hge'⟩ :=
            ih (i + 1) (st.set i (s.getD i (.num 0))) rest extra hdrop1 hset_len hslen
              hset_lt hset_ge hwfs hchks hrest
          refine ⟨st', ?_, hlen', ?_, ?_⟩
          · simp only [desFrom, if_pos hincl, List.append_assoc, hdes0, hdes]
          · intro j hj
            exact hlt' j (by simp only [List.length_cons] at hj; omega)
          · intro j hj
            exact hge' j (by simp only [List.length_cons] at hj; omega)
    · have hincl' : incl f0.specifier = false := by
        cases h : incl f0.specifier
        · rfl
        · exact absurd h hincl
      rw [hincl'] at hser
      simp only [Bool.false_eq_true, if_false] at hser
      have hrest : serFrom incl r s (i + 1) fs = .ok bytes := by
        cases h2 : serFrom incl r s (i + 1) fs with
        | error e => rw [h2] at hser; exact absurd hser (by simp)
        | ok rest => rw [h2] at hser; simpa using hser
      have hlt1 : ∀ j, j < i + 1 → st.getD j (.num 0) = s.getD j (.num 0) := by
        intro j hj
        rcases Nat.lt_succ_iff_lt_or_eq.mp hj with hj' | rfl
        · exact hlt j hj'
        · rw [hge j (le_refl j)]
          exact hagree0 j f0 hif0 hincl'
      have hge1 : ∀ j, i + 1 ≤ j → st.getD j (.num 0) = s0.getD j (.num 0) := by
        intro j hj
        exact hge j (by omega)
      obtain ⟨st', hdes, hlen', hlt', hge'⟩ :=
        ih (i + 1) st bytes extra hdrop1 hstlen hslen hlt1 hge1 hwfs hchks hrest
      refine ⟨st', ?_, hlen', ?_, ?_⟩
      · simp only [desFrom, hincl', Bool.false_eq_true, if_false, hdes]
      · intro j hj
        exact hlt' j (by simp only [List.length_cons] at hj; omega)
      · intro j hj
        exact hge' j (by simp only [List.length_cons] at hj; omega)

end generator

namespace generator

/-- The field filter of a view: `IsReadable` for the read view,
`IsWritable` for the write view. -/
def viewIncl (view : Bool) : String → Bool :=
  if view then IsReadable else IsWritable

/-- The generated serializer of a view. -/
def serializeView (view : Bool) : parser.Register → List FieldValue →
    Except GenError (List Nat) :=
  if view then SerializeRead else SerializeWrite

/-- The generated deserializer of a view. -/
def deserializeView (view : Bool) : parser.Register → List FieldValue → List Nat →
    Except GenError (List FieldValue × List Nat) :=
  if view then DeserializeRead else DeserializeWrite

theorem getD_eq_some_get? {l : List parser.Field} {j : Nat} {f : parser.Field}
    (h : l.get? j = some f) : l.getD j defaultField = f := by
  simp [List.getD_eq_getElem?_getD, ← List.get?_eq_getElem?, h]

theorem wfValue_spec {r : parser.Register} {s : List FieldValue}
    (h : wfValue r s = true) :
    s.length = r.fields.length ∧
      ∀ j f, r.fields.get? j = some f → wfFieldValue f (s.getD j (.num 0)) = true := by
  unfold wfValue at h
  simp only [Bool.and_eq_true, decide_eq_true_eq, List.all_eq_true, List.mem_range] at h
  refine ⟨h.1, fun j f hget => ?_⟩
  have hj : j < r.fields.length := by
    by_contra hc
    rw [List.get?_eq_none.mpr (by omega)] at hget
    exact absurd hget (by simp)
  have := h.2 j hj
  rwa [getD_eq_some_get? hget] at this

theorem agreesOffView_spec {incl : String → Bool} {r : parser.Register}
    {s0 s : List FieldValue} (h : agreesOffView incl r s0 s = true) :
    s0.length = s.length ∧
      ∀ j f, r.fields.get? j = some f → incl f.specifier = false →
        s0.getD j (.num 0) = s.getD j (.num 0) := by
  unfold agreesOffView at h
  simp only [Bool.and_eq_true, decide_eq_true_eq, List.all_eq_true, List.mem_range,
    Bool.or_eq_true] at h
  refine ⟨h.1, fun j f hget hnincl => ?_⟩
  have hj : j < r.fields.length := by
    by_contra hc
    rw [List.get?_eq_none.mpr (by omega)] at hget
    exact absurd hget (by simp)
  rcases h.2 j hj with hincl | heq
  · rw [getD_eq_some_get? hget] at hincl
    rw [hnincl] at hincl
    exact absurd hincl (by simp)
  · exact heq

theorem list_eq_of_getD {l l' : List FieldValue} (hlen : l.length = l'.length)
    (h : ∀ j, l.getD j (.num 0) = l'.getD j (.num 0)) : l = l' := by
  apply List.ext_getElem?
  intro n
  by_cases hn : n < l.length
  · have h1 : l[n]? = some (l.get ⟨n, hn⟩) := List.getElem?_eq_getElem hn
    have h2 : l'[n]? = some (l'.get ⟨n, by omega⟩) := List.getElem?_eq_getElem (by omega)
    have h3 := h n
    simp only [List.getD_eq_getElem?_getD, h1, h2, Option.getD_some] at h3
    rw [h1, h2, h3]
  · rw [List.getElem?_eq_none (by omega), List.getElem?_eq_none (by omega)]

end generator

namespace generator

theorem roundtrip_core (incl : String → Bool) (r : parser.Register)
    (s s0 : List FieldValue)
    (hwf : wfValue r s = true)
    (hchk : Check r s = .ok ())
    (hag : agreesOffView incl r s0 s = true) :
    ∃ bytes, serFrom incl r s 0 r.fields = .ok bytes ∧
      desFrom incl r 0 r.fields s0 bytes = .ok (s, []) := by
  obtain ⟨hslen, hwff⟩ := wfValue_spec hwf
  obtain ⟨hs0len, hag0⟩ := agreesOffView_spec hag
  have hchkres : ∀ k f elem refName, r.fields.get? k = some f →
      fieldKind f = .varArr elem refName →
      resolveLen r s k refName = some (getArr (s.getD k (.num 0))).length := by
    intro k f elem refName hget hkind
    have := checkFrom_resolve r.fields 0 hchk k f elem refName hget hkind
    simpa using this
  obtain ⟨bytes, hser⟩ := @serFrom_ok incl r s r.fields 0
    (fun k f hget => by simpa using hwff k f hget)
    (fun k f elem refName hget hkind => by
      rw [Nat.zero_add, hchkres k f elem refName hget hkind]; rfl)
  obtain ⟨st', hdes, hlen', hlt', hge'⟩ :=
    desFrom_serFrom incl r s s0 hag0 r.fields 0 s0 bytes [] rfl hs0len hslen
      (fun j hj => absurd hj (by omega))
      (fun j _ => rfl)
      (fun k f hget => by simpa using hwff k f hget)
      (fun k f elem refName hget hkind => by
        rw [Nat.zero_add]; exact hchkres k f elem refName hget hkind)
      hser
  have hsteq : st' = s := by
    apply list_eq_of_getD hlen'
    intro j
    by_cases hj : j < r.fields.length
    · exact hlt' j (by omega)
    · have h1 := hge' j (by omega)
      have h2 : s0.getD j (.num 0) = FieldValue.num 0 :=
        List.getD_eq_default _ _ (by omega)
      have h3 : s.getD j (.num 0) = FieldValue.num 0 :=
        List.getD_eq_default _ _ (by omega)
      rw [h1, h2, h3]
  rw [List.append_nil] at hdes
  rw [hsteq] at hdes
  exact ⟨bytes, hser, hdes⟩

/-- **C1** (round-trip law).  For every register (as produced by the
embedded parser: simple integer scalars, bit fields, fixed and
variable-length arrays) and every well-formed register value that
passes the generated `Check` (the array-length consistency
precondition), and for each of the two views independently,
deserializing the byte sequence produced by serializing the value for
that view yields the original value.  Deserialization is the generated
method acting on a receiver struct; the receiver may hold anything on
the fields the view transmits and must agree with the serialized value
on the fields outside the view (which the wire format of that view
does not carry); in particular the receiver `s0 = s` always qualifies,
and when every field belongs to the view the receiver is arbitrary. -/
theorem decode_encode_roundtrip (view : Bool) (r : parser.Register)
    (s s0 : List FieldValue)
    (hwf : wfValue r s = true)
    (hchk : Check r s = .ok ())
    (hag : agreesOffView (viewIncl view) r s0 s = true) :
    ∃ bytes, serializeView view r s = .ok bytes ∧
      deserializeView view r s0 bytes = .ok (s, []) := by
  cases view with
  | true =>
    obtain ⟨bytes, hser, hdes⟩ := roundtrip_core IsReadable r s s0 hwf hchk
      (by simpa [viewIncl] using hag)
    refine ⟨bytes, ?_, ?_⟩
    · simp only [serializeView, if_pos, SerializeRead, hchk]
      exact hser
    · simp only [deserializeView, if_pos, DeserializeRead]
      exact hdes
  | false =>
    obtain ⟨bytes, hser, hdes⟩ := roundtrip_core IsWritable r s s0 hwf hchk
      (by simpa [viewIncl] using hag)
    refine ⟨bytes, ?_, ?_⟩
    · simp only [serializeView, Bool.false_eq_true, if_false, SerializeWrite, hchk]
      exact hser
    · simp only [deserializeView, Bool.false_eq_true, if_false, DeserializeWrite]
      exact hdes

end generator

/-- Equality of `Except` results is decidable, so concrete runs of the
embedded functions can be checked by `decide`. -/
instance exceptDecEq {e a : Type} [DecidableEq e] [DecidableEq a] :
    DecidableEq (Except e a) := fun x y =>
  match x, y with
  | .error u, .error v => decidable_of_iff (u = v) (by simp)
  | .ok u, .ok v => decidable_of_iff (u = v) (by simp)
  | .error _, .ok _ => isFalse (by simp)
  | .ok _, .error _ => isFalse (by simp)

/-- The register `register R(1){ data_size uint8; data [data_size]uint32; }`
after parsing, used as a concrete round-trip witness. -/
def c1Reg : parser.Register :=
  { name := "R", number := 1, specifier := "",
    fields := [
      { name := "data_size", specifier := "",
        type := { bitfield := none, array := none, simple := some { name := "uint8" } } },
      { name := "data", specifier := "",
        type := { bitfield := none,
                  array := some { size := { constant := none, var := some "data_size" },
                                  type := { name := "uint32" } },
                  simple := none } }] }

/-- The value `{data_size: 2, data: [7, 9]}` of `c1Reg`. -/
def c1Val : List generator.FieldValue := [.num 2, .arr [7, 9]]

/-- A zeroed receiver for `c1Reg`. -/
def c1Recv : List generator.FieldValue := [.num 0, .arr []]

/-- Witness for C1 at a concrete register and value. -/
theorem decode_encode_roundtrip_witness :
    ∃ bytes, generator.serializeView true c1Reg c1Val = .ok bytes ∧
      generator.deserializeView true c1Reg c1Recv bytes = .ok (c1Val, []) :=
  generator.decode_encode_roundtrip true c1Reg c1Val c1Recv (by decide) (by decide)
    (by decide)

namespace generator

theorem lor_two_pow_step (w s : Nat) :
    ((2 ^ w - 1) <<< s) ||| (1 <<< (s + w)) = (2 ^ (w + 1) - 1) <<< s := by
  apply Nat.eq_of_testBit_eq
  intro i
  rw [Nat.one_shiftLeft]
  simp only [Nat.testBit_lor, Nat.testBit_shiftLeft, Nat.testBit_two_pow,
    Nat.testBit_two_pow_sub_one]
  by_cases hc1 : s ≤ i <;> by_cases hc2 : i - s < w <;> by_cases hc3 : s + w = i <;>
    simp [hc1, hc2, hc3] <;> omega

theorem toBitMask_loop (s : Nat) : ∀ w, s + w ≤ 64 →
    (List.range w).foldl (fun mask i => mask ||| ((1 <<< (s + i)) % 2 ^ 64)) 0 =
      (2 ^ w - 1) <<< s := by
  intro w
  induction w with
  | zero => intro _; simp
  | succ w ih =>
    intro hle
    rw [List.range_succ, List.foldl_append]
    simp only [List.foldl_cons, List.foldl_nil]
    rw [ih (by omega)]
    have hmod : (1 <<< (s + w)) % 2 ^ 64 = 1 <<< (s + w) := by
      apply Nat.mod_eq_of_lt
      rw [Nat.one_shiftLeft]
      exact Nat.pow_lt_pow_right (by omega) (by omega)
    rw [hmod, lor_two_pow_step]

theorem bitMask_eq (start endBit : Nat) (h1 : start ≤ endBit) (h2 : endBit < 64) :
    bitMask start endBit = (2 ^ (endBit - start + 1) - 1) * 2 ^ start := by
  have hone : 1 ≤ 2 ^ (endBit - start + 1) := Nat.one_le_two_pow
  simp only [bitMask]
  rcases Nat.lt_or_ge (endBit - start + 1) 64 with hlt | hge
  · have hm1 : (1 <<< (endBit - start + 1)) % 2 ^ 64 = 2 ^ (endBit - start + 1) := by
      rw [Nat.one_shiftLeft]
      exact Nat.mod_eq_of_lt (Nat.pow_lt_pow_right (by omega) hlt)
    have hm2 : (2 ^ (endBit - start + 1) + 2 ^ 64 - 1) % 2 ^ 64 =
        2 ^ (endBit - start + 1) - 1 := by
      have hsplit : 2 ^ (endBit - start + 1) + 2 ^ 64 - 1 =
          (2 ^ (endBit - start + 1) - 1) + 2 ^ 64 := by omega
      rw [hsplit, Nat.add_mod_right]
      apply Nat.mod_eq_of_lt
      have hplt : (2:Nat) ^ (endBit - start + 1) < 2 ^ 64 :=
        Nat.pow_lt_pow_right (by omega) hlt
      omega
    rw [hm1, hm2, Nat.shiftLeft_eq]
    apply Nat.mod_eq_of_lt
    have hpos : 0 < (2:Nat) ^ start := Nat.two_pow_pos start
    have hlt2 : (2 ^ (endBit - start + 1) - 1) * 2 ^ start <
        2 ^ (endBit - start + 1) * 2 ^ start :=
      (Nat.mul_lt_mul_right hpos).mpr (by omega)
    have heq2 : 2 ^ (endBit - start + 1) * 2 ^ start = 2 ^ (endBit + 1) := by
      rw [← pow_add]
      have hexp : endBit - start + 1 + start = endBit + 1 := by omega
      rw [hexp]
    have hle64 : 2 ^ (endBit + 1) ≤ 2 ^ 64 := Nat.pow_le_pow_right (by omega) (by omega)
    omega
  · have hw64 : endBit - start + 1 = 64 := by omega
    have hs0 : start = 0 := by omega
    subst hs0
    rw [hw64, Nat.one_shiftLeft, Nat.mod_self, Nat.zero_add,
      Nat.mod_eq_of_lt (show 2 ^ 64 - 1 < 2 ^ 64 by omega), Nat.shiftLeft_zero,
      Nat.mod_eq_of_lt (show 2 ^ 64 - 1 < 2 ^ 64 by omega), pow_zero, Nat.mul_one]

theorem toBitMask_eq_bitMask (start endBit : Nat) (h1 : start ≤ endBit) (h2 : endBit < 64) :
    toBitMask start (some endBit) = bitMask start endBit := by
  simp only [toBitMask]
  by_cases heq : endBit = start
  · subst heq
    rw [if_pos rfl, bitMask_eq endBit endBit (le_refl _) h2]
    rw [Nat.one_shiftLeft, Nat.mod_eq_of_lt (Nat.pow_lt_pow_right (by omega) (by omega)),
      Nat.sub_self, pow_one]
    omega
  · have hexp : endBit + 1 - start = endBit - start + 1 := by omega
    rw [if_neg heq, toBitMask_loop start (endBit + 1 - start) (by omega), hexp,
      Nat.shiftLeft_eq, bitMask_eq start endBit h1 h2]

theorem toBitMask_none_eq_bitMask (start : Nat) (h2 : start < 64) :
    toBitMask start none = bitMask start start := by
  rw [bitMask_eq start start (le_refl _) h2]
  show (if start = start then (1 <<< start) % 2 ^ 64 else _) = _
  rw [if_pos rfl, Nat.one_shiftLeft,
    Nat.mod_eq_of_lt (Nat.pow_lt_pow_right (by omega) (by omega)), Nat.sub_self, pow_one]
  omega

/-- **C2** (bit-mask constants).  For every bit member with
`0 ≤ start ≤ end < width(base)*8 ≤ 64`, the mask constant the Go and
C++ generators emit (`bitMask`, in Go `uint64` arithmetic) equals the
specified closed form `((1 << (end-start+1)) - 1) << start`; the
loop-based `toBitMask` of the Arduino C++ generator computes the same
value, both for a range member and for a single-bit member; and the
example `uint32{bit0: 0, mode: 1-3, high: 22-31}` yields the masks
`0x1`, `0xE` and `0xFFC00000` from both implementations. -/
theorem bitmask_constants (start endBit : Nat) (h1 : start ≤ endBit) (h2 : endBit < 64) :
    bitMask start endBit = (2 ^ (endBit - start + 1) - 1) * 2 ^ start ∧
      toBitMask start (some endBit) = bitMask start endBit ∧
      toBitMask start none = bitMask start start ∧
      toBitMask 0 none = 0x1 ∧ bitMask 0 0 = 0x1 ∧
      toBitMask 1 (some 3) = 0xE ∧ bitMask 1 3 = 0xE ∧
      toBitMask 22 (some 31) = 0xFFC00000 ∧ bitMask 22 31 = 0xFFC00000 :=
  ⟨bitMask_eq start endBit h1 h2, toBitMask_eq_bitMask start endBit h1 h2,
    toBitMask_none_eq_bitMask start (by omega), by decide, by decide, by decide,
    by decide, by decide, by decide⟩

end generator

/-- Witness for C2 at the concrete member `high: 22-31` of the example. -/
theorem bitmask_constants_witness :
    generator.bitMask 22 31 = (2 ^ (31 - 22 + 1) - 1) * 2 ^ 22 ∧
      generator.toBitMask 22 (some 31) = generator.bitMask 22 31 ∧
      generator.toBitMask 22 none = generator.bitMask 22 22 ∧
      generator.toBitMask 0 none = 0x1 ∧ generator.bitMask 0 0 = 0x1 ∧
      generator.toBitMask 1 (some 3) = 0xE ∧ generator.bitMask 1 3 = 0xE ∧
      generator.toBitMask 22 (some 31) = 0xFFC00000 ∧ generator.bitMask 22 31 = 0xFFC00000 :=
  generator.bitmask_constants 22 31 (by decide) (by decide)

namespace generator

theorem fieldKind_varArr_inv {f : parser.Field} {elem refName : String}
    (h : fieldKind f = .varArr elem refName) :
    ∃ a, f.type.array = some a ∧ a.size.var = some refName ∧ a.type.name = elem := by
  unfold fieldKind at h
  split at h
  · exact absurd h (by simp)
  · split at h
    · split at h
      · exact absurd h (by simp)
      · split at h
        · rename_i xbf hbf xarr a harr xc hconst xv ref hvar
          simp only [FieldKind.varArr.injEq] at h
          exact ⟨a, harr, by rw [hvar, h.2], h.1⟩
        · exact absurd h (by simp)
    · split at h
      · exact absurd h (by simp)
      · exact absurd h (by simp)

theorem validateArraysAux_find {r : parser.Register} :
    ∀ (fs : List parser.Field) (i : Nat), parser.validateArraysAux r i fs = .ok () →
      ∀ (k : Nat) (f : parser.Field) (a : parser.ArrayType) (refName : String),
        fs.get? k = some f → f.type.array = some a → a.size.var = some refName →
        (r.FindFieldByName refName (i + k)).isSome = true := by
  intro fs
  induction fs with
  | nil => intro i h k f a refName hget; simp at hget
  | cons f0 fs ih =>
    intro i h k f a refName hget harr hvar
    simp only [parser.validateArraysAux] at h
    cases k with
    | zero =>
      simp only [List.get?_cons_zero, Option.some.injEq] at hget
      subst hget
      rw [harr] at h
      simp only [] at h
      rw [hvar] at h
      simp only [] at h
      cases hfind : r.FindFieldByName refName i with
      | none => rw [hfind] at h; simp only [] at h; exact absurd h (by simp)
      | some x => rw [Nat.add_zero, hfind]; rfl
    | succ k =>
      simp only [List.get?_cons_succ] at hget
      have hrec : parser.validateArraysAux r (i + 1) fs = .ok () := by
        cases harr0 : f0.type.array with
        | none => rw [harr0] at h; simpa using h
        | some a0 =>
          rw [harr0] at h
          simp only [] at h
          cases hvar0 : a0.size.var with
          | none => rw [hvar0] at h; simpa using h
          | some ref0 =>
            rw [hvar0] at h
            simp only [] at h
            cases hfind0 : r.FindFieldByName ref0 i with
            | none => rw [hfind0] at h; simp only [] at h; exact absurd h (by simp)
            | some x => rw [hfind0] at h; simpa using h
      have hres := ih (i + 1) hrec k f a refName hget harr hvar
      have heq : i + 1 + k = i + (k + 1) := by omega
      rwa [heq] at hres

theorem resolveLen_isSome_of_find {r : parser.Register} {s : List FieldValue} {i : Nat}
    {refName : String} (h : (r.FindFieldByName refName i).isSome = true) :
    (resolveLen r s i refName).isSome = true := by
  unfold resolveLen
  cases hf : r.FindFieldByName refName i with
  | none => rw [hf] at h; simp at h
  | some x => obtain ⟨j, f, obm⟩ := x; cases obm <;> rfl

/-- A `GenError` is an `ArrayLengthMismatch`. -/
def isArrayLengthMismatch : GenError → Bool
  | .arrayLengthMismatch _ _ _ _ => true
  | _ => false

end generator

namespace generator

theorem shift_hres {r : parser.Register} {s : List FieldValue} {f0 : parser.Field}
    {fs : List parser.Field} {i : Nat}
    (hres : ∀ k f elem refName, (f0 :: fs).get? k = some f →
        fieldKind f = .varArr elem refName →
        (resolveLen r s (i + k) refName).isSome = true) :
    ∀ k f elem refName, fs.get? k = some f → fieldKind f = .varArr elem refName →
      (resolveLen r s (i + 1 + k) refName).isSome = true := by
  intro k f elem refName hget hkind
  have hr := hres (k + 1) f elem refName hget hkind
  have heq : i + (k + 1) = i + 1 + k := by omega
  rwa [heq] at hr

theorem shift_hmis_of_not0 {r : parser.Register} {s : List FieldValue} {f0 : parser.Field}
    {fs : List parser.Field} {i : Nat}
    (hmis : ∃ k f elem refName val, (f0 :: fs).get? k = some f ∧
        fieldKind f = .varArr elem refName ∧ resolveLen r s (i + k) refName = some val ∧
        (getArr (s.getD (i + k) (.num 0))).length ≠ val)
    (h0 : ∀ elem refName val, fieldKind f0 = .varArr elem refName →
        resolveLen r s i refName = some val → (getArr (s.getD i (.num 0))).length = val) :
    ∃ k f elem refName val, fs.get? k = some f ∧ fieldKind f = .varArr elem refName ∧
      resolveLen r s (i + 1 + k) refName = some val ∧
      (getArr (s.getD (i + 1 + k) (.num 0))).length ≠ val := by
  obtain ⟨k, f, elem, refName, val, hget, hkind, hresk, hne⟩ := hmis
  cases k with
  | zero =>
    simp only [List.get?_cons_zero, Option.some.injEq] at hget
    subst hget
    rw [Nat.add_zero] at hresk hne
    exact absurd (h0 elem refName val hkind hresk) hne
  | succ k =>
    simp only [List.get?_cons_succ] at hget
    have heq : i + (k + 1) = i + 1 + k := by omega
    exact ⟨k, f, elem, refName, val, hget, hkind, by rwa [heq] at hresk,
      by rwa [heq] at hne⟩

theorem checkFrom_mismatch {r : parser.Register} {s : List FieldValue} :
    ∀ (fs : List parser.Field) (i : Nat),
      (∀ k f elem refName, fs.get? k = some f → fieldKind f = .varArr elem refName →
          (resolveLen r s (i + k) refName).isSome = true) →
      (∃ k f elem refName val, fs.get? k = some f ∧ fieldKind f = .varArr elem refName ∧
          resolveLen r s (i + k) refName = some val ∧
          (getArr (s.getD (i + k) (.num 0))).length ≠ val) →
      ∃ e, isArrayLengthMismatch e = true ∧ checkFrom r s i fs = .error e := by
  intro fs
  induction fs with
  | nil =>
    intro i hres hmis
    obtain ⟨k, f, elem, refName, val, hget, _⟩ := hmis
    simp at hget
  | cons f0 fs ih =>
    intro i hres hmis
    simp only [checkFrom]
    cases hk0 : fieldKind f0 with
    | varArr elem0 ref0 =>
      obtain ⟨val0, hval0⟩ := Option.isSome_iff_exists.mp
        (by simpa using hres 0 f0 elem0 ref0 rfl hk0)
      by_cases hlen : (getArr (s.getD i (.num 0))).length = val0
      · have hstep : checkField r s i f0.name (.varArr elem0 ref0) = .ok () := by
          simp only [checkField, hval0]
          rw [if_pos hlen]
        rw [hstep]
        simp only []
        refine ih (i + 1) (shift_hres hres) (shift_hmis_of_not0 hmis ?_)
        intro e rn v hk hrv
        rw [hk0] at hk
        have hk' : elem0 = e ∧ ref0 = rn := by simpa using hk
        obtain ⟨rfl, rfl⟩ := hk'
        rw [hval0] at hrv
        have hv : val0 = v := by simpa using hrv
        subst hv
        exact hlen
      · refine ⟨.arrayLengthMismatch f0.name ref0 (getArr (s.getD i (.num 0))).length val0,
          rfl, ?_⟩
        have hstep : checkField r s i f0.name (.varArr elem0 ref0) =
            .error (.arrayLengthMismatch f0.name ref0
              (getArr (s.getD i (.num 0))).length val0) := by
          simp only [checkField, hval0]
          rw [if_neg hlen]
        rw [hstep]
    | bits bf =>
      rw [show checkField r s i f0.name (.bits bf) = .ok () from rfl]
      simp only []
      refine ih (i + 1) (shift_hres hres) (shift_hmis_of_not0 hmis ?_)
      intro e rn v hk _
      rw [hk0] at hk
      exact absurd hk (by simp)
    | fixedArr elem0 sz0 =>
      rw [show checkField r s i f0.name (.fixedArr elem0 sz0) = .ok () from rfl]
      simp only []
      refine ih (i + 1) (shift_hres hres) (shift_hmis_of_not0 hmis ?_)
      intro e rn v hk _
      rw [hk0] at hk
      exact absurd hk (by simp)
    | scalar name0 =>
      rw [show checkField r s i f0.name (.scalar name0) = .ok () from rfl]
      simp only []
      refine ih (i + 1) (shift_hres hres) (shift_hmis_of_not0 hmis ?_)
      intro e rn v hk _
      rw [hk0] at hk
      exact absurd hk (by simp)
    | unsupported =>
      rw [show checkField r s i f0.name .unsupported = .ok () from rfl]
      simp only []
      refine ih (i + 1) (shift_hres hres) (shift_hmis_of_not0 hmis ?_)
      intro e rn v hk _
      rw [hk0] at hk
      exact absurd hk (by simp)

/-- **C6** (array-length consistency is checked before encoding).  For
every register that passed array validation and every value in which
some variable-length array's in-memory length differs from its
resolved length-reference value, the generated `Check` fails with an
`ArrayLengthMismatch`, and both generated serializers fail with that
same error writing no payload bytes: the generated
`SerializeRead`/`SerializeWrite` run `Check` first and return
`(0, err)` before any field is encoded (in this embedding, an
`Except.error` carrying no bytes).  The mismatch is never silently
truncated or padded. -/
theorem serialize_length_mismatch_fails (r : parser.Register) (s : List FieldValue)
    (hval : parser.validateArrays r = .ok ())
    (hmis : ∃ i f elem refName val, r.fields.get? i = some f ∧
        fieldKind f = .varArr elem refName ∧ resolveLen r s i refName = some val ∧
        (getArr (s.getD i (.num 0))).length ≠ val) :
    ∃ e, isArrayLengthMismatch e = true ∧ Check r s = .error e ∧
      SerializeRead r s = .error e ∧ SerializeWrite r s = .error e := by
  have hres : ∀ k f elem refName, r.fields.get? k = some f →
      fieldKind f = .varArr elem refName →
      (resolveLen r s (0 + k) refName).isSome = true := by
    intro k f elem refName hget hkind
    obtain ⟨a, harr, hvar, _⟩ := fieldKind_varArr_inv hkind
    have hfind := validateArraysAux_find r.fields 0 hval k f a refName hget harr hvar
    exact resolveLen_isSome_of_find hfind
  obtain ⟨i, f, elem, refName, val, hget, hkind, hresv, hne⟩ := hmis
  obtain ⟨e, halm, hchk⟩ := checkFrom_mismatch r.fields 0 hres
    ⟨i, f, elem, refName, val, hget, hkind, by rwa [Nat.zero_add], by rwa [Nat.zero_add]⟩
  refine ⟨e, halm, hchk, ?_, ?_⟩
  · unfold SerializeRead Check
    rw [show checkFrom r s 0 r.fields = .error e from hchk]
  · unfold SerializeWrite Check
    rw [show checkFrom r s 0 r.fields = .error e from hchk]

end generator

/-- The register `register R6(1){ n uint8; data [n]uint8; }`. -/
def c6Reg : parser.Register :=
  { name := "R6", number := 1, specifier := "",
    fields := [
      { name := "n", specifier := "",
        type := { bitfield := none, array := none, simple := some { name := "uint8" } } },
      { name := "data", specifier := "",
        type := { bitfield := none,
                  array := some { size := { constant := none, var := some "n" },
                                  type := { name := "uint8" } },
                  simple := none } }] }

/-- A value of `c6Reg` with `n = 2` but only one array element. -/
def c6Val : List generator.FieldValue := [.num 2, .arr [7]]

/-- Witness for C6: the mismatched value makes `Check` and both
serializers fail with an `ArrayLengthMismatch`. -/
theorem serialize_length_mismatch_fails_witness :
    ∃ e, generator.isArrayLengthMismatch e = true ∧
      generator.Check c6Reg c6Val = .error e ∧
      generator.SerializeRead c6Reg c6Val = .error e ∧
      generator.SerializeWrite c6Reg c6Val = .error e :=
  generator.serialize_length_mismatch_fails c6Reg c6Val (by decide)
    ⟨1, { name := "data", specifier := "",
          type := { bitfield := none,
                    array := some { size := { constant := none, var := some "n" },
                                    type := { name := "uint8" } },
                    simple := none } }, "uint8", "n", 2, by decide, by decide, by decide,
      by decide⟩

namespace parser

theorem validateFieldsSpec_all_empty (spec name : String) :
    ∀ fs : List Field, (∀ f ∈ fs, f.specifier = "") →
      validateFieldsSpec spec name fs =
        .ok (fs.map (fun f => { f with specifier := spec })) := by
  intro fs
  induction fs with
  | nil => intro _; rfl
  | cons f0 fs ih =>
    intro hall
    have h0 : f0.specifier = "" := hall f0 (List.mem_cons_self f0 fs)
    have hrec := ih (fun f hf => hall f (List.mem_cons_of_mem f0 hf))
    simp only [validateFieldsSpec, if_pos h0, hrec, List.map_cons]

end parser

namespace generator

theorem bufSizeFrom_zero {incl : String → Bool} {r : parser.Register} {s : List FieldValue} :
    ∀ (fs : List parser.Field) (i : Nat), (∀ f ∈ fs, incl f.specifier = false) →
      bufSizeFrom incl r s i fs = 0 := by
  intro fs
  induction fs with
  | nil => intro i _; rfl
  | cons f0 fs ih =>
    intro i hall
    have h0 : incl f0.specifier = false := hall f0 (List.mem_cons_self f0 fs)
    simp only [bufSizeFrom, h0, Bool.false_eq_true, if_false,
      ih (i + 1) (fun f hf => hall f (List.mem_cons_of_mem f0 hf))]

theorem serFrom_excluded {incl : String → Bool} {r : parser.Register} {s : List FieldValue} :
    ∀ (fs : List parser.Field) (i : Nat), (∀ f ∈ fs, incl f.specifier = false) →
      serFrom incl r s i fs = .ok [] := by
  intro fs
  induction fs with
  | nil => intro i _; rfl
  | cons f0 fs ih =>
    intro i hall
    have h0 : incl f0.specifier = false := hall f0 (List.mem_cons_self f0 fs)
    simp only [serFrom, h0, Bool.false_eq_true, if_false,
      ih (i + 1) (fun f hf => hall f (List.mem_cons_of_mem f0 hf)), List.nil_append]

/-- **C9** (read-only register, write view).  For every register
declared with the `r` specifier whose fields all have unspecified
accessibility, the specifier validation succeeds, every field's
resolved specifier is `r` (the AST records the inherited value), the
generated `BufSize4Write` is the constant `0` at every register state,
and the generated `SerializeWrite` emits no field bytes — it returns
`(0, nil)` whenever its leading `Check` passes. -/
theorem readonly_register_write_view (r r' : parser.Register) (s : List FieldValue)
    (hspec : r.specifier = "r")
    (hfields : ∀ f ∈ r.fields, f.specifier = "")
    (hok : parser.validateAndUpdateFieldSpecifiers r = .ok r') :
    (∀ f ∈ r'.fields, f.specifier = "r") ∧ BufSize4Write r' s = 0 ∧
      (Check r' s = .ok () → SerializeWrite r' s = .ok []) := by
  have hr' : r' =
      { r with fields := r.fields.map (fun f => { f with specifier := r.specifier }) } := by
    unfold parser.validateAndUpdateFieldSpecifiers at hok
    rw [if_neg (by rw [hspec]; simp),
      parser.validateFieldsSpec_all_empty r.specifier r.name r.fields hfields] at hok
    simpa using hok.symm
  have hallr : ∀ f ∈ r'.fields, f.specifier = "r" := by
    intro f hf
    rw [hr'] at hf
    simp only [List.mem_map] at hf
    obtain ⟨g, _, rfl⟩ := hf
    exact hspec
  have hnw : ∀ f ∈ r'.fields, IsWritable f.specifier = false := by
    intro f hf
    rw [hallr f hf]
    rfl
  refine ⟨hallr, bufSizeFrom_zero r'.fields 0 hnw, fun hchk => ?_⟩
  unfold SerializeWrite
  rw [hchk]
  exact serFrom_excluded r'.fields 0 hnw

end generator

/-- The register `register RO(2): r { a uint8; b uint16; }`. -/
def c9Reg : parser.Register :=
  { name := "RO", number := 2, specifier := "r",
    fields := [
      { name := "a", specifier := "",
        type := { bitfield := none, array := none, simple := some { name := "uint8" } } },
      { name := "b", specifier := "",
        type := { bitfield := none, array := none, simple := some { name := "uint16" } } }] }

/-- `c9Reg` after specifier validation: both fields resolved to `r`. -/
def c9RegAfter : parser.Register :=
  { name := "RO", number := 2, specifier := "r",
    fields := [
      { name := "a", specifier := "r",
        type := { bitfield := none, array := none, simple := some { name := "uint8" } } },
      { name := "b", specifier := "r",
        type := { bitfield := none, array := none, simple := some { name := "uint16" } } }] }

/-- A value of `c9Reg`. -/
def c9Val : List generator.FieldValue := [.num 5, .num 300]

/-- Witness for C9 at a concrete read-only register. -/
theorem readonly_register_write_view_witness :
    (∀ f ∈ c9RegAfter.fields, f.specifier = "r") ∧
      generator.BufSize4Write c9RegAfter c9Val = 0 ∧
      (generator.Check c9RegAfter c9Val = .ok () →
        generator.SerializeWrite c9RegAfter c9Val = .ok []) :=
  generator.readonly_register_write_view c9Reg c9RegAfter c9Val (by decide)
    (by decide) (by decide)

namespace parser

theorem validateFieldsSpec_ok_spec (spec name : String) :
    ∀ (fs fs' : List Field), validateFieldsSpec spec name fs = .ok fs' →
      fs'.length = fs.length ∧
      ∀ i f, fs.get? i = some f →
        (f.specifier = "" → fs'.get? i = some { f with specifier := spec }) ∧
        (f.specifier ≠ "" → fs'.get? i = some f) := by
  intro fs
  induction fs with
  | nil =>
    intro fs' h
    obtain rfl : fs' = [] := by simpa [validateFieldsSpec] using h.symm
    exact ⟨rfl, fun i f hget => by simp at hget⟩
  | cons f0 fs ih =>
    intro fs' h
    simp only [validateFieldsSpec] at h
    by_cases h0 : f0.specifier = ""
    · rw [if_pos h0] at h
      cases hrec : validateFieldsSpec spec name fs with
      | error e => rw [hrec] at h; exact absurd h (by simp)
      | ok fs1 =>
        rw [hrec] at h
        obtain rfl : fs' = { f0 with specifier := spec } :: fs1 := by simpa using h.symm
        obtain ⟨hlen, hspec⟩ := ih fs1 hrec
        refine ⟨by simp [hlen], fun i f hget => ?_⟩
        cases i with
        | zero =>
          simp only [List.get?_cons_zero, Option.some.injEq] at hget
          subst hget
          exact ⟨fun _ => rfl, fun hne => absurd h0 hne⟩
        | succ i =>
          simp only [List.get?_cons_succ] at hget ⊢
          exact hspec i f hget
    · rw [if_neg h0] at h
      by_cases h1 : spec = "r" ∧ f0.specifier = "w"
      · rw [if_pos h1] at h; exact absurd h (by simp)
      · rw [if_neg h1] at h
        by_cases h2 : spec = "w" ∧ f0.specifier = "r"
        · rw [if_pos h2] at h; exact absurd h (by simp)
        · rw [if_neg h2] at h
          cases hrec : validateFieldsSpec spec name fs with
          | error e => rw [hrec] at h; exact absurd h (by simp)
          | ok fs1 =>
            rw [hrec] at h
            obtain rfl : fs' = f0 :: fs1 := by simpa using h.symm
            obtain ⟨hlen, hspec⟩ := ih fs1 hrec
            refine ⟨by simp [hlen], fun i f hget => ?_⟩
            cases i with
            | zero =>
              simp only [List.get?_cons_zero, Option.some.injEq] at hget
              subst hget
              exact ⟨fun he => absurd he h0, fun _ => rfl⟩
            | succ i =>
              simp only [List.get?_cons_succ] at hget ⊢
              exact hspec i f hget

theorem validateFieldsSpec_error_spec (spec name : String) :
    ∀ fs e, validateFieldsSpec spec name fs = .error e →
      ∃ f ∈ fs, (spec = "r" ∧ f.specifier = "w") ∨ (spec = "w" ∧ f.specifier = "r") := by
  intro fs
  induction fs with
  | nil => intro e h; simp [validateFieldsSpec] at h
  | cons f0 fs ih =>
    intro e h
    simp only [validateFieldsSpec] at h
    by_cases h0 : f0.specifier = ""
    · rw [if_pos h0] at h
      cases hrec : validateFieldsSpec spec name fs with
      | error e1 =>
        obtain ⟨f, hf, hc⟩ := ih e1 hrec
        exact ⟨f, List.mem_cons_of_mem f0 hf, hc⟩
      | ok fs1 => rw [hrec] at h; exact absurd h (by simp)
    · rw [if_neg h0] at h
      by_cases h1 : spec = "r" ∧ f0.specifier = "w"
      · exact ⟨f0, List.mem_cons_self f0 fs, Or.inl h1⟩
      · rw [if_neg h1] at h
        by_cases h2 : spec = "w" ∧ f0.specifier = "r"
        · exact ⟨f0, List.mem_cons_self f0 fs, Or.inr h2⟩
        · rw [if_neg h2] at h
          cases hrec : validateFieldsSpec spec name fs with
          | error e1 =>
            obtain ⟨f, hf, hc⟩ := ih e1 hrec
            exact ⟨f, List.mem_cons_of_mem f0 hf, hc⟩
          | ok fs1 => rw [hrec] at h; exact absurd h (by simp)

theorem validateFieldsSpec_conflict_error (spec name : String) :
    ∀ fs, (∃ f ∈ fs, (spec = "r" ∧ f.specifier = "w") ∨ (spec = "w" ∧ f.specifier = "r")) →
      ∃ e, validateFieldsSpec spec name fs = .error e := by
  intro fs
  induction fs with
  | nil => intro h; obtain ⟨f, hf, _⟩ := h; simp at hf
  | cons f0 fs ih =>
    intro h
    by_cases hc0 : (spec = "r" ∧ f0.specifier = "w") ∨ (spec = "w" ∧ f0.specifier = "r")
    · have h0 : ¬ f0.specifier = "" := by
        rcases hc0 with ⟨_, hw⟩ | ⟨_, hr⟩
        · rw [hw]; simp
        · rw [hr]; simp
      simp only [validateFieldsSpec, if_neg h0]
      rcases hc0 with hc | hc
      · exact ⟨_, by rw [if_pos hc]⟩
      · by_cases h1 : spec = "r" ∧ f0.specifier = "w"
        · exact ⟨_, by rw [if_pos h1]⟩
        · exact ⟨_, by rw [if_neg h1, if_pos hc]⟩
    · obtain ⟨f, hf, hcf⟩ := h
      have hfs : f ∈ fs := by
        rcases List.mem_cons.mp hf with rfl | hmem
        · exact absurd hcf hc0
        · exact hmem
      obtain ⟨e, he⟩ := ih ⟨f, hfs, hcf⟩
      simp only [validateFieldsSpec]
      by_cases h0 : f0.specifier = ""
      · rw [if_pos h0, he]
        exact ⟨e, rfl⟩
      · have h1 : ¬ (spec = "r" ∧ f0.specifier = "w") := fun hx => hc0 (Or.inl hx)
        have h2 : ¬ (spec = "w" ∧ f0.specifier = "r") := fun hx => hc0 (Or.inr hx)
        rw [if_neg h0, if_neg h1, if_neg h2, he]
        exact ⟨e, rfl⟩

/-- **C7** (accessibility inheritance and conflicts).  After
`validateAndUpdateFieldSpecifiers` succeeds on a register that carries
a specifier, every field that had no explicit specifier carries the
register's specifier in the returned (mutated) AST, and every field
with an explicit specifier is unchanged; a register without a
specifier is returned untouched.  The validation fails exactly when
some field's explicit specifier contradicts the register's: an
explicit `w` field in an `r` register or an explicit `r` field in a
`w` register. -/
theorem specifier_inheritance_and_conflict (r : Register) :
    (r.specifier = "" → validateAndUpdateFieldSpecifiers r = .ok r) ∧
      (∀ r', r.specifier ≠ "" → validateAndUpdateFieldSpecifiers r = .ok r' →
        r'.fields.length = r.fields.length ∧
        ∀ i f, r.fields.get? i = some f →
          (f.specifier = "" → r'.fields.get? i = some { f with specifier := r.specifier }) ∧
          (f.specifier ≠ "" → r'.fields.get? i = some f)) ∧
      ((∃ e, validateAndUpdateFieldSpecifiers r = .error e) ↔
        ∃ f ∈ r.fields, (r.specifier = "r" ∧ f.specifier = "w") ∨
          (r.specifier = "w" ∧ f.specifier = "r")) := by
  refine ⟨fun hempty => by simp [validateAndUpdateFieldSpecifiers, hempty], ?_, ?_, ?_⟩
  · intro r' hne hok
    unfold validateAndUpdateFieldSpecifiers at hok
    rw [if_neg hne] at hok
    cases hrec : validateFieldsSpec r.specifier r.name r.fields with
    | error e => rw [hrec] at hok; exact absurd hok (by simp)
    | ok fs1 =>
      rw [hrec] at hok
      obtain rfl : r' = { r with fields := fs1 } := by simpa using hok.symm
      obtain ⟨hlen, hspec⟩ := validateFieldsSpec_ok_spec r.specifier r.name r.fields fs1 hrec
      exact ⟨hlen, hspec⟩
  · rintro ⟨e, herr⟩
    unfold validateAndUpdateFieldSpecifiers at herr
    by_cases hempty : r.specifier = ""
    · rw [if_pos hempty] at herr; exact absurd herr (by simp)
    · rw [if_neg hempty] at herr
      cases hrec : validateFieldsSpec r.specifier r.name r.fields with
      | error e1 => exact validateFieldsSpec_error_spec r.specifier r.name r.fields e1 hrec
      | ok fs1 => rw [hrec] at herr; exact absurd herr (by simp)
  · intro hconf
    have hne : r.specifier ≠ "" := by
      obtain ⟨f, _, hc⟩ := hconf
      rcases hc with ⟨hr, _⟩ | ⟨hw, _⟩
      · rw [hr]; simp
      · rw [hw]; simp
    obtain ⟨e, he⟩ := validateFieldsSpec_conflict_error r.specifier r.name r.fields hconf
    refine ⟨e, ?_⟩
    unfold validateAndUpdateFieldSpecifiers
    rw [if_neg hne, he]

end parser

/-- The register `register M(3): r { ok uint8; bad: w uint8; }`. -/
def c7Reg : parser.Register :=
  { name := "M", number := 3, specifier := "r",
    fields := [
      { name := "ok", specifier := "",
        type := { bitfield := none, array := none, simple := some { name := "uint8" } } },
      { name := "bad", specifier := "w",
        type := { bitfield := none, array := none, simple := some { name := "uint8" } } }] }

/-- Witness for C7: the conflict direction at a concrete register with
an explicit `w` field inside an `r` register. -/
theorem specifier_inheritance_and_conflict_witness :
    (∃ e, parser.validateAndUpdateFieldSpecifiers c7Reg = .error e) ∧
      c7Reg.specifier ≠ "" :=
  ⟨(parser.specifier_inheritance_and_conflict c7Reg).2.2.mpr
    ⟨{ name := "bad", specifier := "w",
       type := { bitfield := none, array := none, simple := some { name := "uint8" } } },
      by decide, Or.inl ⟨rfl, rfl⟩⟩, by decide⟩

namespace parser

theorem validateBits_ok_iff (fn rn base : String) (bits : Nat) :
    ∀ bms : List BitMember,
      validateBits fn rn base bits bms = .ok () ↔
        ∀ bm ∈ bms, bm.EndBit < (bits : Int) ∧ 0 ≤ bm.StartBit ∧
          bm.StartBit ≤ bm.EndBit := by
  intro bms
  induction bms with
  | nil => simp [validateBits]
  | cons bm0 bms ih =>
    simp only [validateBits]
    by_cases h1 : bm0.EndBit ≥ (bits : Int)
    · rw [if_pos h1]
      constructor
      · intro h; exact absurd h (by simp)
      · intro h
        have := (h bm0 (List.mem_cons_self _ _)).1
        omega
    · rw [if_neg h1]
      by_cases h2 : bm0.StartBit < 0
      · rw [if_pos h2]
        constructor
        · intro h; exact absurd h (by simp)
        · intro h
          have := (h bm0 (List.mem_cons_self _ _)).2.1
          omega
      · rw [if_neg h2]
        by_cases h3 : bm0.StartBit > bm0.EndBit
        · rw [if_pos h3]
          constructor
          · intro h; exact absurd h (by simp)
          · intro h
            have := (h bm0 (List.mem_cons_self _ _)).2.2
            omega
        · rw [if_neg h3, ih]
          constructor
          · intro h bm hbm
            rcases List.mem_cons.mp hbm with rfl | hmem
            · exact ⟨by omega, by omega, by omega⟩
            · exact h bm hmem
          · intro h bm hbm
            exact h bm (List.mem_cons_of_mem _ hbm)

theorem validateBitFieldsAux_ok_iff (rn : String) :
    ∀ fs : List Field,
      validateBitFieldsAux rn fs = .ok () ↔
        ∀ f ∈ fs, ∀ bf, f.type.bitfield = some bf →
          isUnsignedType bf.base = true ∧
          validateBits f.name rn bf.base (getTypeSizeInBits bf.base) bf.bits = .ok () := by
  intro fs
  induction fs with
  | nil => simp [validateBitFieldsAux]
  | cons f0 fs ih =>
    simp only [validateBitFieldsAux]
    cases hbf : f0.type.bitfield with
    | none =>
      simp only []
      rw [ih]
      constructor
      · intro h f hf bf hbf2
        rcases List.mem_cons.mp hf with rfl | hmem
        · rw [hbf] at hbf2; exact absurd hbf2 (by simp)
        · exact h f hmem bf hbf2
      · intro h f hf bf hbf2
        exact h f (List.mem_cons_of_mem _ hf) bf hbf2
    | some bf0 =>
      simp only []
      by_cases hu : isUnsignedType bf0.base = true
      · rw [if_neg (by simp [hu])]
        cases hvb : validateBits f0.name rn bf0.base (getTypeSizeInBits bf0.base) bf0.bits with
        | error e =>
          constructor
          · intro h; exact absurd h (by simp)
          · intro h
            have := (h f0 (List.mem_cons_self _ _) bf0 hbf).2
            rw [hvb] at this
            exact absurd this (by simp)
        | ok u =>
          cases u
          rw [ih]
          constructor
          · intro h f hf bf hbf2
            rcases List.mem_cons.mp hf with rfl | hmem
            · rw [hbf] at hbf2
              obtain rfl : bf0 = bf := by simpa using hbf2
              exact ⟨hu, hvb⟩
            · exact h f hmem bf hbf2
          · intro h f hf bf hbf2
            exact h f (List.mem_cons_of_mem _ hf) bf hbf2
      · rw [if_pos (by simpa using hu)]
        constructor
        · intro h; exact absurd h (by simp)
        · intro h
          exact absurd (h f0 (List.mem_cons_self _ _) bf0 hbf).1 hu

theorem except_unit_error_iff {ε : Type} (x : Except ε Unit) :
    (∃ e, x = .error e) ↔ ¬ x = .ok () := by
  cases x with
  | error e => simp
  | ok u => cases u; simp

/-- **C8** (bit-field validation).  `validateBitFields` fails whenever
some bit-packed field's base kind is not an unsigned integer type
(signed and non-integer bases alike), and fails whenever some member
violates `endBit < width(base)*8`, `startBit ≥ 0` or
`startBit ≤ endBit`; and it accepts every register whose bit-packed
fields all have unsigned bases and members within these bounds. -/
theorem bitfield_validation (r : Register) :
    ((∃ f ∈ r.fields, ∃ bf, f.type.bitfield = some bf ∧
        isUnsignedType bf.base = false) → ∃ e, validateBitFields r = .error e) ∧
      ((∃ f ∈ r.fields, ∃ bf, f.type.bitfield = some bf ∧ ∃ bm ∈ bf.bits,
          bm.EndBit ≥ (getTypeSizeInBits bf.base : Int) ∨ bm.StartBit < 0 ∨
            bm.StartBit > bm.EndBit) → ∃ e, validateBitFields r = .error e) ∧
      ((∀ f ∈ r.fields, ∀ bf, f.type.bitfield = some bf →
          isUnsignedType bf.base = true ∧
          ∀ bm ∈ bf.bits, bm.EndBit < (getTypeSizeInBits bf.base : Int) ∧
            0 ≤ bm.StartBit ∧ bm.StartBit ≤ bm.EndBit) →
        validateBitFields r = .ok ()) := by
  refine ⟨?_, ?_, ?_⟩
  · rintro ⟨f, hf, bf, hbf, hu⟩
    rw [except_unit_error_iff]
    intro hok
    have := ((validateBitFieldsAux_ok_iff r.name r.fields).mp hok f hf bf hbf).1
    rw [hu] at this
    exact absurd this (by simp)
  · rintro ⟨f, hf, bf, hbf, bm, hbm, hviol⟩
    rw [except_unit_error_iff]
    intro hok
    have hvb := ((validateBitFieldsAux_ok_iff r.name r.fields).mp hok f hf bf hbf).2
    have := (validateBits_ok_iff f.name r.name bf.base (getTypeSizeInBits bf.base)
      bf.bits).mp hvb bm hbm
    omega
  · intro h
    apply (validateBitFieldsAux_ok_iff r.name r.fields).mpr
    intro f hf bf hbf
    obtain ⟨hu, hbounds⟩ := h f hf bf hbf
    exact ⟨hu, (validateBits_ok_iff f.name r.name bf.base
      (getTypeSizeInBits bf.base) bf.bits).mpr hbounds⟩

end parser

/-- The bit field `uint8{a: 0, b: 1-3}`. -/
def c8Bits : parser.BitField :=
  { base := "uint8",
    bits := [{ name := "a", start := 0, End := none },
             { name := "b", start := 1, End := some 3 }] }

/-- The register `register B8(4){ flags uint8{a: 0, b: 1-3}; }`. -/
def c8Reg : parser.Register :=
  { name := "B8", number := 4, specifier := "",
    fields := [
      { name := "flags", specifier := "",
        type := { bitfield := some c8Bits, array := none, simple := none } }] }

/-- Witness for C8: the pass direction at a concrete in-bounds
bit-packed register. -/
theorem bitfield_validation_witness : parser.validateBitFields c8Reg = .ok () :=
  (parser.bitfield_validation c8Reg).2.2 (by
    intro f hf bf hbf
    simp only [c8Reg, List.mem_singleton] at hf
    subst hf
    obtain rfl : bf = c8Bits := by simpa using hbf.symm
    refine ⟨by decide, ?_⟩
    intro bm hbm
    fin_cases hbm <;> exact ⟨by decide, by decide, by decide⟩)

namespace parser

theorem vAU_preserves_number (r r' : Register)
    (h : validateAndUpdateFieldSpecifiers r = .ok r') : r'.number = r.number := by
  unfold validateAndUpdateFieldSpecifiers at h
  by_cases hempty : r.specifier = ""
  · rw [if_pos hempty] at h
    obtain rfl : r' = r := by simpa using h.symm
    rfl
  · rw [if_neg hempty] at h
    cases hrec : validateFieldsSpec r.specifier r.name r.fields with
    | error e => rw [hrec] at h; exact absurd h (by simp)
    | ok fs1 =>
      rw [hrec] at h
      obtain rfl : r' = { r with fields := fs1 } := by simpa using h.symm
      rfl

theorem validateRegisters_ok_numbers :
    ∀ (rs : List Register) (seen : List Int) (rs' : List Register),
      validateRegisters seen rs = .ok rs' →
      rs'.map Register.number = rs.map Register.number ∧
        (∀ r ∈ rs, r.number ∉ seen) ∧ (rs.map Register.number).Nodup := by
  intro rs
  induction rs with
  | nil =>
    intro seen rs' h
    obtain rfl : rs' = [] := by simpa [validateRegisters] using h.symm
    exact ⟨rfl, by simp, by simp⟩
  | cons r rs ih =>
    intro seen rs' h
    simp only [validateRegisters] at h
    by_cases hmem : r.number ∈ seen
    · rw [if_pos hmem] at h; exact absurd h (by simp)
    · rw [if_neg hmem] at h
      cases hvau : validateAndUpdateFieldSpecifiers r with
      | error e => rw [hvau] at h; exact absurd h (by simp)
      | ok r1 =>
        rw [hvau] at h
        simp only [] at h
        cases hbf : validateBitFields r1 with
        | error e => rw [hbf] at h; exact absurd h (by simp)
        | ok u =>
          rw [hbf] at h
          simp only [] at h
          cases harr : validateArrays r1 with
          | error e => rw [harr] at h; exact absurd h (by simp)
          | ok u2 =>
            rw [harr] at h
            simp only [] at h
            cases hrec : validateRegisters (r.number :: seen) rs with
            | error e => rw [hrec] at h; exact absurd h (by simp)
            | ok rs1 =>
              rw [hrec] at h
              obtain rfl : rs' = r1 :: rs1 := by simpa using h.symm
              obtain ⟨hmap, hnotin, hnd⟩ := ih (r.number :: seen) rs1 hrec
              have hnum := vAU_preserves_number r r1 hvau
              refine ⟨by simp [hmap, hnum], ?_, ?_⟩
              · intro r2 hr2
                rcases List.mem_cons.mp hr2 with rfl | hmem2
                · exact hmem
                · intro hin
                  exact hnotin r2 hmem2 (List.mem_cons_of_mem _ hin)
              · simp only [List.map_cons, List.nodup_cons]
                refine ⟨?_, hnd⟩
                intro hin
                simp only [List.mem_map] at hin
                obtain ⟨r2, hr2, hnum2⟩ := hin
                exact hnotin r2 hr2 (by rw [hnum2]; exact List.mem_cons_self _ _)

theorem validateRegisters_dup :
    ∀ (rs : List Register) (seen : List Int),
      (∀ r ∈ rs, ∃ r', validateAndUpdateFieldSpecifiers r = .ok r' ∧
          validateBitFields r' = .ok () ∧ validateArrays r' = .ok ()) →
      ¬ (List.Disjoint seen (rs.map Register.number) ∧
          (rs.map Register.number).Nodup) →
      ∃ n, validateRegisters seen rs = .error (.duplicateRegisterNumber n) ∧
        n ∈ rs.map Register.number ∧
        (n ∈ seen ∨ (rs.map Register.number).count n ≥ 2) := by
  intro rs
  induction rs with
  | nil =>
    intro seen hclean hbad
    exact absurd ⟨by simp [List.Disjoint], by simp⟩ hbad
  | cons r rs ih =>
    intro seen hclean hbad
    simp only [validateRegisters]
    by_cases hmem : r.number ∈ seen
    · rw [if_pos hmem]
      exact ⟨r.number, rfl, by simp, Or.inl hmem⟩
    · rw [if_neg hmem]
      obtain ⟨r1, hvau, hbf, harr⟩ := hclean r (List.mem_cons_self r rs)
      rw [hvau]
      simp only []
      rw [hbf]
      simp only []
      rw [harr]
      simp only []
      have hbad' : ¬ (List.Disjoint (r.number :: seen) (rs.map Register.number) ∧
          (rs.map Register.number).Nodup) := by
        intro ⟨hdisj, hnd⟩
        apply hbad
        constructor
        · intro a ha hamem
          simp only [List.map_cons, List.mem_cons] at hamem
          rcases hamem with rfl | hamem
          · exact hmem ha
          · exact hdisj (List.mem_cons_of_mem _ ha) hamem
        · simp only [List.map_cons, List.nodup_cons]
          exact ⟨fun hin => hdisj (List.mem_cons_self _ _) hin, hnd⟩
      obtain ⟨n, herr, hnmem, hcase⟩ := ih (r.number :: seen)
        (fun r2 hr2 => hclean r2 (List.mem_cons_of_mem _ hr2)) hbad'
      rw [herr]
      simp only []
      refine ⟨n, rfl, by simp [hnmem], ?_⟩
      rcases hcase with hin | hcount
      · rcases List.mem_cons.mp hin with rfl | hinseen
        · right
          have h1 : (rs.map Register.number).count r.number ≥ 1 :=
            List.count_pos_iff.mpr hnmem
          simp only [List.map_cons, List.count_cons_self]
          omega
        · exact Or.inl hinseen
      · right
        simp only [List.map_cons]
        rcases eq_or_ne n r.number with rfl | hne
        · rw [List.count_cons_self]; omega
        · rw [List.count_cons_of_ne hne]; omega

/-- **C5 (amended)** (register-number uniqueness).  Every device the
validation loop of `Parse` returns has pairwise distinct register
numbers (and the numbers are unchanged from the input); a device with
a duplicated register number is never accepted; and when every register
passes the per-register validations (so that no earlier fail-fast
error precedes the duplicate check), a device with a duplicated number
fails with the duplicate-register-number error naming a number that
occurs at least twice.  (The unamended claim — that *every* input with
a duplicate yields the duplicate-number error — fails because `Parse`
is fail-fast: an earlier register's specifier/bitfield/array error is
reported instead; see the counterexample.) -/
theorem device_register_numbers (d : Device) :
    (∀ d', validateDevice d = .ok d' →
      (d'.registers.map Register.number).Nodup ∧
        d'.registers.map Register.number = d.registers.map Register.number) ∧
      (¬ (d.registers.map Register.number).Nodup →
        (∀ d', validateDevice d ≠ .ok d') ∧
        ((∀ r ∈ d.registers, ∃ r', validateAndUpdateFieldSpecifiers r = .ok r' ∧
            validateBitFields r' = .ok () ∧ validateArrays r' = .ok ()) →
          ∃ n, validateDevice d = .error (.duplicateRegisterNumber n) ∧
            (d.registers.map Register.number).count n ≥ 2)) := by
  constructor
  · intro d' hok
    unfold validateDevice at hok
    cases hreg : validateRegisters [] d.registers with
    | error e => rw [hreg] at hok; exact absurd hok (by simp)
    | ok rs' =>
      rw [hreg] at hok
      obtain rfl : d' = { d with registers := rs' } := by simpa using hok.symm
      obtain ⟨hmap, _, hnd⟩ := validateRegisters_ok_numbers d.registers [] rs' hreg
      refine ⟨?_, ?_⟩
      · show (rs'.map Register.number).Nodup
        rw [hmap]
        exact hnd
      · exact hmap
  · intro hdup
    constructor
    · intro d' hok
      unfold validateDevice at hok
      cases hreg : validateRegisters [] d.registers with
      | error e => rw [hreg] at hok; exact absurd hok (by simp)
      | ok rs' =>
        obtain ⟨_, _, hnd⟩ := validateRegisters_ok_numbers d.registers [] rs' hreg
        exact hdup hnd
    · intro hclean
      obtain ⟨n, herr, _, hcase⟩ := validateRegisters_dup d.registers [] hclean
        (fun ⟨_, hnd⟩ => hdup hnd)
      refine ⟨n, ?_, ?_⟩
      · unfold validateDevice
        rw [herr]
      · rcases hcase with hin | hcount
        · simp at hin
        · exact hcount

end parser

/-- The field `f: w uint8`. -/
def c5Field : parser.Field :=
  { name := "f", specifier := "w",
    type := { bitfield := none, array := none, simple := some { name := "uint8" } } }

/-- A device with registers `A(1): r { f: w uint8; }` and `B(1)`: the
numbers collide, but register `A`'s specifier conflict is hit first. -/
def c5Dev : parser.Device :=
  { name := "dev5",
    registers := [
      { name := "A", number := 1, specifier := "r", fields := [c5Field] },
      { name := "B", number := 1, specifier := "", fields := [] }] }

/-- Counterexample for C5 as stated: `c5Dev` has two registers sharing
number `1`, yet `Parse`'s validation reports the accessibility
conflict of register `A`, not a duplicate-register-number error. -/
theorem duplicate_number_error_masked :
    c5Dev.registers.map parser.Register.number = [1, 1] ∧
      parser.validateDevice c5Dev =
        .error (.writeFieldInReadRegister "f" "A") ∧
      ∀ n, parser.validateDevice c5Dev ≠
        .error (.duplicateRegisterNumber n) := by
  refine ⟨by decide, by decide, ?_⟩
  intro n h
  rw [show parser.validateDevice c5Dev =
    .error (.writeFieldInReadRegister "f" "A") by decide] at h
  exact absurd h (by simp)

/-- Witness for C5 (amended) at a concrete clean device with a
duplicated register number. -/
def c5CleanDev : parser.Device :=
  { name := "dev5c",
    registers := [
      { name := "A", number := 1, specifier := "", fields := [] },
      { name := "B", number := 1, specifier := "", fields := [] }] }

/-- Witness for C5 (amended): the clean duplicate device fails with the
duplicate-register-number error, and no accepted device keeps the
duplicate. -/
theorem device_register_numbers_witness :
    (∀ d', parser.validateDevice c5CleanDev ≠ .ok d') ∧
      ∃ n, parser.validateDevice c5CleanDev =
        .error (.duplicateRegisterNumber n) ∧
        (c5CleanDev.registers.map parser.Register.number).count n ≥ 2 := by
  have h := (parser.device_register_numbers c5CleanDev).2 (by decide)
  exact ⟨h.1, h.2 (by
    intro r hr
    fin_cases hr <;> exact ⟨_, rfl, rfl, rfl⟩)⟩

/-- The field `b B` (a register-embedding reference to register `B`). -/
def c4FieldB : parser.Field :=
  { name := "b", specifier := "",
    type := { bitfield := none, array := none, simple := some { name := "B" } } }

/-- The field `a A` (a register-embedding reference to register `A`). -/
def c4FieldA : parser.Field :=
  { name := "a", specifier := "",
    type := { bitfield := none, array := none, simple := some { name := "A" } } }

/-- The device `device cyc` with `register A(0){ b B; }` and
`register B(1){ a A; }`: the register embeddings form a cycle. -/
def c4Dev : parser.Device :=
  { name := "cyc",
    registers := [
      { name := "A", number := 0, specifier := "", fields := [c4FieldB] },
      { name := "B", number := 1, specifier := "", fields := [c4FieldA] }] }

/-- **C4** (cyclic register embedding is not rejected).  The semantic
validation of `Parse` — duplicate numbers, field specifiers, bit
fields, arrays — accepts the cyclic device `c4Dev` unchanged: no pass
inspects register-embedding references, no cycle check exists in the
code, and no `CyclicRegisterReference` error is ever produced,
although the repository's own language specification and the design
contract require cyclic embeddings to be rejected. -/
theorem cyclic_register_embedding_accepted :
    parser.validateDevice c4Dev = .ok c4Dev := by decide

namespace parsergo

theorem findFieldScan_name_mem (v : String) :
    ∀ fs : List Field, (∃ f' ∈ fs, f'.name = v) → (findFieldScan v fs).1 = true := by
  intro fs
  induction fs with
  | nil => intro h; obtain ⟨f, hf, _⟩ := h; simp at hf
  | cons f0 fs ih =>
    intro h
    simp only [findFieldScan]
    by_cases h0 : f0.name = v
    · rw [if_pos h0]
    · rw [if_neg h0]
      have htail : ∃ f' ∈ fs, f'.name = v := by
        obtain ⟨f, hf, hname⟩ := h
        rcases List.mem_cons.mp hf with rfl | hmem
        · exact absurd hname h0
        · exact ⟨f, hmem, hname⟩
      split
      · split
        · rfl
        · exact ih htail
      · exact ih htail

theorem findFieldByName_of_earlier_field (r : Register) (i : Nat) (v : String)
    (h : ∃ j f', j < i ∧ r.fields.get? j = some f' ∧ f'.name = v) :
    (findFieldByName r v i).1 = true := by
  obtain ⟨j, f', hj, hget, hname⟩ := h
  apply findFieldScan_name_mem
  refine ⟨f', ?_, hname⟩
  exact List.get?_mem (show (r.fields.take i).get? j = some f' by
    rw [List.get?_take hj]; exact hget)

theorem validateArraysAux_ok_spec (r : Register) :
    ∀ (fs : List Field) (i : Nat), validateArraysAux r i fs = .ok () →
      ∀ k f a, fs.get? k = some f → f.type.array = some a →
        checkArrayField r (i + k) f a = none := by
  intro fs
  induction fs with
  | nil => intro i h k f a hget; simp at hget
  | cons f0 fs ih =>
    intro i h k f a hget harr
    simp only [validateArraysAux] at h
    cases k with
    | zero =>
      simp only [List.get?_cons_zero, Option.some.injEq] at hget
      rw [← hget] at harr ⊢
      rw [harr] at h
      simp only [] at h
      cases hcf : checkArrayField r i f0 a with
      | some e => rw [hcf] at h; exact absurd h (by simp)
      | none => rw [Nat.add_zero]; exact hcf
    | succ k =>
      simp only [List.get?_cons_succ] at hget
      have hrec : validateArraysAux r (i + 1) fs = .ok () := by
        cases harr0 : f0.type.array with
        | none => rwa [harr0] at h
        | some a0 =>
          rw [harr0] at h
          simp only [] at h
          cases hcf0 : checkArrayField r i f0 a0 with
          | some e => rw [hcf0] at h; exact absurd h (by simp)
          | none => rwa [hcf0] at h
      have hres := ih (i + 1) hrec k f a hget harr
      have heq : i + 1 + k = i + (k + 1) := by omega
      rwa [heq] at hres

theorem validateArraysAux_error_at (r : Register) :
    ∀ (fs : List Field) (i k : Nat) (f : Field) (a : ArrayType) (e : parser.ParseError),
      fs.get? k = some f → f.type.array = some a →
      (∀ k' f' a', k' < k → fs.get? k' = some f' → f'.type.array = some a' →
          checkArrayField r (i + k') f' a' = none) →
      checkArrayField r (i + k) f a = some e →
      validateArraysAux r i fs = .error e := by
  intro fs
  induction fs with
  | nil => intro i k f a e hget; simp at hget
  | cons f0 fs ih =>
    intro i k f a e hget harr hclean hcf
    simp only [validateArraysAux]
    cases k with
    | zero =>
      simp only [List.get?_cons_zero, Option.some.injEq] at hget
      subst hget
      rw [harr]
      simp only []
      rw [Nat.add_zero] at hcf
      rw [hcf]
    | succ k =>
      simp only [List.get?_cons_succ] at hget
      have hstep : ∀ a0, f0.type.array = some a0 → checkArrayField r i f0 a0 = none := by
        intro a0 harr0
        have := hclean 0 f0 a0 (by omega) rfl harr0
        rwa [Nat.add_zero] at this
      have hrec : validateArraysAux r (i + 1) fs = .error e := by
        apply ih (i + 1) k f a e hget harr
        · intro k' f' a' hk' hget' harr'
          have := hclean (k' + 1) f' a' (by omega) hget' harr'
          have heq : i + (k' + 1) = i + 1 + k' := by omega
          rwa [heq] at this
        · have heq : i + (k + 1) = i + 1 + k := by omega
          rwa [heq] at hcf
      cases harr0 : f0.type.array with
      | none => exact hrec
      | some a0 =>
        simp only []
        rw [hstep a0 harr0]
        exact hrec

theorem validateArraysAux_all_ok (r : Register) :
    ∀ (fs : List Field) (i : Nat),
      (∀ k f a, fs.get? k = some f → f.type.array = some a →
          checkArrayField r (i + k) f a = none) →
      validateArraysAux r i fs = .ok () := by
  intro fs
  induction fs with
  | nil => intro i _; rfl
  | cons f0 fs ih =>
    intro i hall
    simp only [validateArraysAux]
    have hrec := ih (i + 1) (fun k f a hget harr => by
      have := hall (k + 1) f a hget harr
      have heq : i + (k + 1) = i + 1 + k := by omega
      rwa [heq] at this)
    cases harr0 : f0.type.array with
    | none => exact hrec
    | some a0 =>
      simp only []
      rw [show checkArrayField r i f0 a0 = none by
        simpa [Nat.add_zero] using hall 0 f0 a0 rfl harr0]
      exact hrec

theorem checkArrayField_undefined (r : Register) (i : Nat) (f : Field) (a : ArrayType)
    (v : String) (hvar : a.size.var = some v) (hnotty : isUnsignedType v = false)
    (hty : ∀ t, a.size.type = some t → isUnsignedType t = true)
    (hfind : (findFieldByName r v i).1 = false) :
    checkArrayField r i f a = some (.undefinedLengthReference f.name r.name v) := by
  have hcv : checkArrayFieldVar r i f a =
      some (.undefinedLengthReference f.name r.name v) := by
    unfold checkArrayFieldVar
    rw [hvar]
    simp only []
    rw [if_neg (by rw [hnotty]; simp), if_pos hfind]
  unfold checkArrayField
  cases hst : a.size.type with
  | none => exact hcv
  | some t =>
    simp only []
    rw [if_neg (by rw [hty t hst]; simp)]
    exact hcv

theorem checkArrayField_resolves (r : Register) (i : Nat) (f : Field) (a : ArrayType)
    (hty : ∀ t, a.size.type = some t → isUnsignedType t = true)
    (hvar : ∀ v, a.size.var = some v → isUnsignedType v = false ∧
        (findFieldByName r v i).1 = true) :
    checkArrayField r i f a = none := by
  have hcv : checkArrayFieldVar r i f a = none := by
    unfold checkArrayFieldVar
    cases hv : a.size.var with
    | none => rfl
    | some v =>
      simp only []
      obtain ⟨hnotty, hfind⟩ := hvar v hv
      rw [if_neg (by rw [hnotty]; simp), if_neg (by rw [hfind]; simp)]
  unfold checkArrayField
  cases hst : a.size.type with
  | none => exact hcv
  | some t =>
    simp only []
    rw [if_neg (by rw [hty t hst]; simp)]
    exact hcv

/-- **C3** (variable-array length references).  For `validateArrays`
of the parser: a reference that names any field declared strictly
before the array resolves (`findFieldByName` over the earlier fields
succeeds); a variable-length array whose reference does not resolve
among the fields declared before it — in particular one naming a field
or synthesized `<field>_<member>` bit-member name declared only at or
after the array's own index — always makes validation fail, and when
the arrays before it are themselves valid the error is the
undefined-length-reference error naming the array, the register and
the reference; and a register all of whose variable-length arrays
reference names declared strictly before them passes array
validation. -/
theorem variable_array_length_reference (r : Register) :
    (∀ i v, (∃ j f', j < i ∧ r.fields.get? j = some f' ∧ f'.name = v) →
      (findFieldByName r v i).1 = true) ∧
      (∀ i f a v, r.fields.get? i = some f → f.type.array = some a →
        a.size.var = some v → isUnsignedType v = false →
        (∀ t, a.size.type = some t → isUnsignedType t = true) →
        (findFieldByName r v i).1 = false →
        (∃ e, validateArrays r = .error e) ∧
        ((∀ k f' a', k < i → r.fields.get? k = some f' → f'.type.array = some a' →
            checkArrayField r k f' a' = none) →
          validateArrays r = .error (.undefinedLengthReference f.name r.name v))) ∧
      ((∀ i f a, r.fields.get? i = some f → f.type.array = some a →
          (∀ t, a.size.type = some t → isUnsignedType t = true) ∧
          (∀ v, a.size.var = some v → isUnsignedType v = false ∧
            ∃ j f', j < i ∧ r.fields.get? j = some f' ∧ f'.name = v)) →
        validateArrays r = .ok ()) := by
  refine ⟨findFieldByName_of_earlier_field r, ?_, ?_⟩
  · intro i f a v hget harr hvar hnotty hty hfind
    have hcf : checkArrayField r i f a =
        some (.undefinedLengthReference f.name r.name v) :=
      checkArrayField_undefined r i f a v hvar hnotty hty hfind
    constructor
    · rw [parser.except_unit_error_iff]
      intro hok
      have := validateArraysAux_ok_spec r r.fields 0 hok i f a hget harr
      rw [Nat.zero_add, hcf] at this
      exact absurd this (by simp)
    · intro hclean
      unfold validateArrays
      apply validateArraysAux_error_at r r.fields 0 i f a _ hget harr
      · intro k' f' a' hk' hget' harr'
        rw [Nat.zero_add]
        exact hclean k' f' a' hk' hget' harr'
      · rw [Nat.zero_add]
        exact hcf
  · intro hall
    unfold validateArrays
    apply validateArraysAux_all_ok
    intro k f a hget harr
    obtain ⟨hty, hvar⟩ := hall k f a hget harr
    rw [Nat.zero_add]
    apply checkArrayField_resolves r k f a hty
    intro v hv
    obtain ⟨hnotty, hex⟩ := hvar v hv
    exact ⟨hnotty, findFieldByName_of_earlier_field r k v hex⟩

def c3LenField : Field :=
  ⟨"len", "", .mk none none (some ⟨"uint8"⟩)⟩

def c3BadArr : ArrayType :=
  .mk ⟨none, none, some "n"⟩ (.mk none none (some ⟨"uint8"⟩))

def c3BadDataField : Field :=
  ⟨"data", "", .mk none (some c3BadArr) none⟩

def c3BadReg : Register :=
  ⟨"R", 1, "", [c3LenField, c3BadDataField]⟩

def c3OkArr : ArrayType :=
  .mk ⟨none, none, some "len"⟩ (.mk none none (some ⟨"uint8"⟩))

def c3OkDataField : Field :=
  ⟨"data", "", .mk none (some c3OkArr) none⟩

def c3OkReg : Register :=
  ⟨"R2", 2, "", [c3LenField, c3OkDataField]⟩

theorem variable_array_length_reference_witness :
    (findFieldByName c3BadReg "len" 1).1 = true ∧
    validateArrays c3BadReg = .error (.undefinedLengthReference "data" "R" "n") ∧
    validateArrays c3OkReg = .ok () := by
  refine ⟨?_, ?_, ?_⟩
  · exact (variable_array_length_reference c3BadReg).1 1 "len"
      ⟨0, c3LenField, by decide, rfl, rfl⟩
  · refine ((variable_array_length_reference c3BadReg).2.1 1 c3BadDataField c3BadArr "n"
      rfl rfl rfl (by decide) ?_ rfl).2 ?_
    · intro t ht
      rw [show c3BadArr.size.type = (none : Option String) from rfl] at ht
      exact absurd ht (by simp)
    · intro k f' a' hk hget' harr'
      obtain rfl : k = 0 := by omega
      rw [show c3BadReg.fields.get? 0 = some c3LenField from rfl] at hget'
      injection hget' with h
      subst h
      rw [show c3LenField.type.array = (none : Option ArrayType) from rfl] at harr'
      exact absurd harr' (by simp)
  · refine (variable_array_length_reference c3OkReg).2.2 ?_
    intro i f a hget harr
    cases i with
    | zero =>
      rw [show c3OkReg.fields.get? 0 = some c3LenField from rfl] at hget
      injection hget with h
      subst h
      rw [show c3LenField.type.array = (none : Option ArrayType) from rfl] at harr
      exact absurd harr (by simp)
    | succ i =>
      cases i with
      | zero =>
        rw [show c3OkReg.fields.get? 1 = some c3OkDataField from rfl] at hget
        injection hget with h
        subst h
        rw [show c3OkDataField.type.array = some c3OkArr from rfl] at harr
        injection harr with h2
        subst h2
        refine ⟨?_, ?_⟩
        · intro t ht
          rw [show c3OkArr.size.type = (none : Option String) from rfl] at ht
          exact absurd ht (by simp)
        · intro v hv
          rw [show c3OkArr.size.var = some "len" from rfl] at hv
          injection hv with h3
          subst h3
          exact ⟨by decide, 0, c3LenField, by decide, rfl, rfl⟩
      | succ j =>
        rw [show c3OkReg.fields.get? (j + 1 + 1) = none from rfl] at hget
        exact absurd hget (by simp)

end parsergo

/-! ## C10: trailing blank content and `Parse` -/

namespace parser

theorem splitLines_ne_nil (s : List Char) : splitLines s ≠ [] := by
  cases s with
  | nil => simp [splitLines]
  | cons c rest =>
    simp only [splitLines]
    cases hsl : splitLines rest with
    | nil => simp
    | cons l ls =>
      simp only []
      split <;> simp

theorem splitLines_append_newline (u s : List Char) :
    splitLines (s ++ '\n' :: u) = splitLines s ++ splitLines u := by
  induction s with
  | nil =>
    simp only [List.nil_append, splitLines]
    cases hsl : splitLines u with
    | nil => exact absurd hsl (splitLines_ne_nil u)
    | cons l ls => simp
  | cons c s ih =>
    simp only [List.cons_append, splitLines, List.append_eq]
    rw [ih]
    cases hs : splitLines s with
    | nil => exact absurd hs (splitLines_ne_nil s)
    | cons l ls =>
      simp only [List.cons_append]
      by_cases hc : c = '\n'
      · simp [hc]
      · simp [hc]

theorem splitLines_blank (u : List Char) (h : u.all isSpaceChar = true) :
    ∀ l ∈ splitLines u, lineIsBlank l = true := by
  induction u with
  | nil =>
    intro l hl
    simp only [splitLines, List.mem_singleton] at hl
    subst hl
    rfl
  | cons c rest ih =>
    simp only [List.all_cons, Bool.and_eq_true] at h
    obtain ⟨hc, hrest⟩ := h
    intro l hl
    simp only [splitLines] at hl
    cases hsl : splitLines rest with
    | nil => exact absurd hsl (splitLines_ne_nil rest)
    | cons m ms =>
      rw [hsl] at hl
      simp only [] at hl
      by_cases hcn : c = '\n'
      · rw [if_pos hcn] at hl
        rcases List.mem_cons.mp hl with rfl | hl2
        · rfl
        · exact ih hrest l (by rw [hsl]; exact hl2)
      · rw [if_neg hcn] at hl
        rcases List.mem_cons.mp hl with rfl | hl2
        · have hm : lineIsBlank m = true :=
            ih hrest m (by rw [hsl]; exact List.mem_cons_self m ms)
          simp only [lineIsBlank, List.all_cons, hc, Bool.true_and]
          exact hm
        · exact ih hrest l (by rw [hsl]; exact List.mem_cons_of_mem m hl2)

theorem lastNonEmptyIdx_all_blank (ys : List (List Char))
    (h : ∀ l ∈ ys, lineIsBlank l = true) : lastNonEmptyIdx ys = none := by
  induction ys with
  | nil => rfl
  | cons y ys ih =>
    simp only [lastNonEmptyIdx]
    rw [ih (fun l hl => h l (List.mem_cons_of_mem y hl))]
    simp only []
    simp [h y (List.mem_cons_self y ys)]

theorem lastNonEmptyIdx_append (xs ys : List (List Char))
    (h : lastNonEmptyIdx ys = none) :
    lastNonEmptyIdx (xs ++ ys) = lastNonEmptyIdx xs := by
  induction xs with
  | nil => simpa using h
  | cons x xs ih =>
    simp only [List.cons_append, lastNonEmptyIdx, List.append_eq]
    rw [ih]

theorem lastNonEmptyIdx_lt_length (xs : List (List Char)) :
    ∀ k, lastNonEmptyIdx xs = some k → k < xs.length := by
  induction xs with
  | nil => intro k h; exact absurd h (by simp [lastNonEmptyIdx])
  | cons x xs ih =>
    intro k h
    simp only [lastNonEmptyIdx] at h
    cases hx : lastNonEmptyIdx xs with
    | some j =>
      rw [hx] at h
      simp only [] at h
      injection h with h2
      have := ih j hx
      simp only [List.length_cons]
      omega
    | none =>
      rw [hx] at h
      simp only [] at h
      by_cases hb : lineIsBlank x = true
      · rw [if_pos hb] at h
        exact absurd h (by simp)
      · rw [if_neg hb] at h
        injection h with h2
        simp only [List.length_cons]
        omega

theorem removeTrailing_append_blank (s t : List Char)
    (hshape : t = [] ∨ ∃ u, t = '\n' :: u) (hblank : t.all isSpaceChar = true) :
    removeTrailingEmptyLinesFromString (s ++ t) = removeTrailingEmptyLinesFromString s := by
  rcases hshape with rfl | ⟨u, rfl⟩
  · rw [List.append_nil]
  · simp only [List.all_cons, Bool.and_eq_true] at hblank
    obtain ⟨-, hu⟩ := hblank
    simp only [removeTrailingEmptyLinesFromString]
    rw [splitLines_append_newline u s]
    rw [lastNonEmptyIdx_append _ _ (lastNonEmptyIdx_all_blank _ (splitLines_blank u hu))]
    cases hlast : lastNonEmptyIdx (splitLines s) with
    | none => rfl
    | some k =>
      simp only []
      have hk := lastNonEmptyIdx_lt_length (splitLines s) k hlast
      rw [List.take_append_of_le_length (by omega)]

def c10Parser (input : List Char) : Except ParseError Device :=
  .ok { name := String.mk input, registers := [] }

def c10Input : List Char := ['d', 'e', 'v']

def c10Tail : List Char := ['\n', ' ', '\n', '\t']

/-- **C10** (trailing blank content).  `Parse` trims its input to the
lines up to and including the last non-blank one before handing it to
the text parser, so appending a trailing blank suffix — empty, or a
newline followed by whitespace-only lines — never changes the result:
`Parse(s ++ t) = Parse(s)` for every text parser, every input `s` and
every such suffix `t`. -/
theorem parse_trailing_blank_invariant (p : List Char → Except ParseError Device)
    (s t : List Char) (hshape : t = [] ∨ ∃ u, t = '\n' :: u)
    (hblank : t.all isSpaceChar = true) :
    ParseWith p (s ++ t) = ParseWith p s := by
  unfold ParseWith
  rw [removeTrailing_append_blank s t hshape hblank]

theorem parse_trailing_blank_invariant_witness :
    (c10Tail = [] ∨ ∃ u, c10Tail = '\n' :: u) ∧ c10Tail.all isSpaceChar = true ∧
    ParseWith c10Parser (c10Input ++ c10Tail) = ParseWith c10Parser c10Input :=
  ⟨Or.inr ⟨[' ', '\n', '\t'], rfl⟩, by decide,
   parse_trailing_blank_invariant c10Parser c10Input c10Tail
     (Or.inr ⟨[' ', '\n', '\t'], rfl⟩) (by decide)⟩

end parser
